import Mathlib

/-!
Verification of the namespace-tree and connection-session core of the
etcd-box repository (`main.go`).

The Go `Node` struct is embedded as the inductive `GNode` (the `parent`
back-reference is dropped: it is a non-owning pointer fully determined by
the tree shape and never influences the verified operations).  The Go
slice `children []*Node` becomes `List GNode`; in-place mutation becomes
functional update.  The external etcd client is modelled as a handle onto
an abstract `Store` (an ordered list of keys); its `Get ... WithPrefix`
call returns the keys having the requested string prefix, in store order,
which also captures the clientv3 convention that the empty prefix denotes
the whole keyspace.  Failures of the external calls (client construction,
liveness probe, prefix query) are injected through explicit boolean
fields of an environment record.
-/

/-- Embedding of the Go struct `Node` (main.go lines 17-25): fields
`name`, `key`, `icon`, `rootName`, `connected`, `children`.  The
`parent` back-reference is omitted. -/
inductive GNode : Type where
  | mk : String → String → String → String → Bool → List GNode → GNode

/-- Field `name` of a node. -/
def GNode.name : GNode → String
  | .mk n _ _ _ _ _ => n

/-- Field `key` of a node (the full store key; `fullKey` in the spec). -/
def GNode.key : GNode → String
  | .mk _ k _ _ _ _ => k

/-- Field `icon` of a node (doubles as the node kind in the program). -/
def GNode.icon : GNode → String
  | .mk _ _ i _ _ _ => i

/-- Field `rootName` of a node. -/
def GNode.rootName : GNode → String
  | .mk _ _ _ r _ _ => r

/-- Field `connected` of a node. -/
def GNode.connected : GNode → Bool
  | .mk _ _ _ _ c _ => c

/-- Field `children` of a node. -/
def GNode.children : GNode → List GNode
  | .mk _ _ _ _ _ cs => cs

/-- Functional update of the `children` field (Go `d.children = ...`). -/
def GNode.withChildren : GNode → List GNode → GNode
  | .mk n k i r c _, cs => .mk n k i r c cs

/-- Functional update of the `icon` field (Go `refreshNodeIcon`). -/
def GNode.withIcon : GNode → String → GNode
  | .mk n k _ r c cs, i => .mk n k i r c cs

/-- Functional update of the `connected` field. -/
def GNode.withConnected : GNode → Bool → GNode
  | .mk n k i r _ cs, c => .mk n k i r c cs

/-- Embedding of Go `newNode` (main.go lines 27-35): `connected` gets the
Go zero value `false`, `children` the zero value nil. -/
def newNode (name key icon rootName : String) : GNode :=
  .mk name key icon rootName false []

/-- Placeholder node used as the (never reached) default of an indexed
list access. -/
def dfltNode : GNode := newNode "" "" "" ""

/-- Index of the last child whose `name` equals `s`.  The Go loop in
`addNode` (main.go lines 78-84) scans all children and keeps the last
match, so a duplicate label would resolve to the highest index. -/
def lastIdx : List GNode → String → Option Nat
  | [], _ => none
  | c :: cs, s =>
    match lastIdx cs s with
    | some i => some (i + 1)
    | none => if c.name = s then some 0 else none

/-- Embedding of Go `Node.addNode` (main.go lines 73-94).  An empty
segment list is a no-op; otherwise the last child matching the first
segment is descended into (Go mutates it in place, modelled by
`List.set` at its index), and if none matches a fresh node is appended —
carrying the *full* key `key` and a directory icon unless this is the
final segment — and descended into. -/
def GNode.addNode (d : GNode) (keys : List String) (key rootName : String) : GNode :=
  match keys with
  | [] => d
  | s :: rest =>
    match lastIdx d.children s with
    | some i =>
        d.withChildren (d.children.set i
          (GNode.addNode (d.children.getD i dfltNode) rest key rootName))
    | none =>
        let icon := if rest.isEmpty then "img/file.ico" else "img/dir.ico"
        d.withChildren (d.children ++
          [GNode.addNode (newNode s key icon rootName) rest key rootName])

/-- The action of `addNode` on a children list, used to reason about the
subtree independently of the root node's other fields. -/
def addNodeL (cs : List GNode) (keys : List String) (key rootName : String) :
    List GNode :=
  match keys with
  | [] => cs
  | s :: rest =>
    match lastIdx cs s with
    | some i => cs.set i (GNode.addNode (cs.getD i dfltNode) rest key rootName)
    | none =>
        let icon := if rest.isEmpty then "img/file.ico" else "img/dir.ico"
        cs ++ [GNode.addNode (newNode s key icon rootName) rest key rootName]

theorem addNode_children (d : GNode) (keys : List String) (key rootName : String) :
    (d.addNode keys key rootName).children = addNodeL d.children keys key rootName := by
  cases d with
  | mk n k i r c cs =>
    cases keys with
    | nil => rfl
    | cons s rest =>
      show (GNode.addNode (.mk n k i r c cs) (s :: rest) key rootName).children = _
      unfold GNode.addNode addNodeL
      cases h : lastIdx (GNode.children (.mk n k i r c cs)) s <;>
        simp [GNode.children, GNode.withChildren] at h ⊢ <;> simp [h]

/-- Splitting a character list at `'/'` separators: the semantics of Go
`strings.Split(s, "/")`, defined structurally so that it evaluates in the
kernel. -/
def splitSeg : List Char → List String
  | [] => [""]
  | c :: cs =>
    if c = '/' then "" :: splitSeg cs
    else
      match splitSeg cs with
      | h :: t => String.mk (c :: h.data) :: t
      | [] => [String.mk [c]]

/-- Go `strings.TrimPrefix(s, "/")` on character lists: drop one leading
slash if present. -/
def trimSlash : List Char → List Char
  | '/' :: rest => rest
  | l => l

/-- The key-to-segments conversion performed in `connect` and `search`
(main.go lines 693, 727):
`strings.Split(strings.TrimPrefix(key, "/"), "/")`. -/
def splitKey (k : String) : List String :=
  splitSeg (trimSlash k.data)

/-- The subtree-population loop shared by `connect` (main.go 691-696) and
`search` (725-730): insert each returned key in store order. -/
def buildSubtree (node : GNode) (keyList : List String) (rootName : String) : GNode :=
  keyList.foldl (fun n k => n.addNode (splitKey k) k rootName) node

/-- `resetSubtree`: the assignment `node.children = nil` (main.go 717, 752). -/
def resetSubtree (node : GNode) : GNode :=
  node.withChildren []

example : splitKey "/a/b/c" = ["a", "b", "c"] := by decide
example : splitKey "" = [""] := by decide
example : splitKey "a//b" = ["a", "", "b"] := by decide

/-! ## The external store and the session state -/

/-- Boolean test that `p` is a string prefix of `k`, on character lists
(so that it evaluates in the kernel). -/
def isPfxOf : List Char → List Char → Bool
  | [], _ => true
  | _ :: _, [] => false
  | a :: as, b :: bs => a = b && isPfxOf as bs

/-- String-level wrapper of `isPfxOf`. -/
def keyHasPfx (p k : String) : Bool :=
  isPfxOf p.data k.data

/-- The external etcd keyspace reachable through a client handle: the
ordered list of keys a full listing returns. -/
structure Store : Type where
  keys : List String
deriving DecidableEq

/-- Model of `client.Get(ctx, p, clientv3.WithPrefix(), clientv3.WithKeysOnly())`:
the stored keys having string prefix `p`, in store order.  The empty
string is a prefix of every key, so `p = ""` lists the whole keyspace —
exactly the clientv3 convention for an empty prefix. -/
def Store.getKeysOnly (s : Store) (p : String) : List String :=
  s.keys.filter (fun k => keyHasPfx p k)

/-- Embedding of the Go struct `EtcdConfig` (main.go lines 183-191).
`Port` is `float64` in Go but only ever carried, never computed with, so
it is embedded as `Nat`; `Client` is the session's stored handle,
modelled as the store it grants access to. -/
structure EtcdConfig : Type where
  Name : String
  Endpoint : String
  Host : String
  Port : Nat
  Username : String
  Password : String
  Client : Option Store
deriving DecidableEq

/-- The global map `etcdConfigs` (main.go line 193), as an association
list looked up by first match (Go map keys are unique). -/
def lookupConfig : List (String × EtcdConfig) → String → Option EtcdConfig
  | [], _ => none
  | (n, ec) :: rest, s => if n = s then some ec else lookupConfig rest s

/-- The in-place mutation `ec.Client = v` of the config registered under
name `s` (Go holds the struct by pointer, so the map entry changes). -/
def setClient : List (String × EtcdConfig) → String → Option Store →
    List (String × EtcdConfig)
  | [], _, _ => []
  | (n, ec) :: rest, s, v =>
    if n = s then (n, { ec with Client := v }) :: rest
    else (n, ec) :: setClient rest s v

/-- The connection-root placeholder node as created at startup by
`newNodeTreeModel` (main.go line 113) and by the add-connection dialog
(line 377): `newNode(ec.Name, "", "img/unconnected.ico", "", root)` —
note that its `rootName` field is the empty string. -/
def connRootNode (cname : String) : GNode :=
  newNode cname "" "img/unconnected.ico" ""

/-- Environment of one `connect` attempt: the store reachable at the
configured endpoint, and whether each of the three external calls —
`clientv3.New`, the `Status` liveness probe, the initial prefix `Get` —
succeeds. -/
structure ConnEnv : Type where
  store : Store
  newOk : Bool
  probeOk : Bool
  queryOk : Bool
deriving DecidableEq

/-- Result of one `connect` attempt: the updated config registry and
node, plus accounting of the external client handle (`created`: a handle
was constructed by `clientv3.New`; `closed`: `connect` closed it before
returning) and whether an error box was raised (`walk.MsgBox`). -/
structure ConnectResult : Type where
  configs : List (String × EtcdConfig)
  node : GNode
  created : Bool
  closed : Bool
  msgBox : Bool

/-- Embedding of `connect` (main.go lines 655-713), the effect of one
completed attempt.  Mirrors the code exactly: no check of the node's
current `connected` state; no reset of the existing children; the client
is stored into the config (`ec.Client = client`) after the probe but
*before* the prefix query; no branch ever calls `client.Close()`.  The
GUI-only steps (wait dialog, `SetExpanded`, clearing the key/value text
panes) are omitted. -/
def connect (env : ConnEnv) (configs : List (String × EtcdConfig)) (node : GNode) :
    ConnectResult :=
  match lookupConfig configs node.name with
  | none => ⟨configs, node, false, false, false⟩
  | some _ =>
    if !env.newOk then ⟨configs, node, false, false, true⟩
    else if !env.probeOk then ⟨configs, node, true, false, true⟩
    else
      let configs1 := setClient configs node.name (some env.store)
      if !env.queryOk then ⟨configs1, node, true, false, true⟩
      else
        let keyList := env.store.getKeysOnly "/"
        let node1 := buildSubtree node keyList node.name
        let node2 := (node1.withIcon "img/connected.ico").withConnected true
        ⟨configs1, node2, true, false, false⟩

/-- Embedding of `search` (main.go lines 715-749), the effect of one
completed search.  The guard is `ec != nil && ec.Client != nil`; its else
branch is an empty `// TODO`, so a missing config or missing client is a
silent no-op.  Inside the guard the children are cleared *before* the
query, so a failing query leaves an empty subtree.  The boolean result
records whether an error box (`walk.MsgBox`) was raised; the `connected`
flag is never touched.  Returns the updated node (the config registry is
only read). -/
def search (queryOk : Bool) (searchKey : String)
    (configs : List (String × EtcdConfig)) (node : GNode) : GNode × Bool :=
  match lookupConfig configs node.name with
  | some ec =>
    match ec.Client with
    | some client =>
      let node1 := node.withChildren []
      if !queryOk then (node1, true)
      else
        let keyList := client.getKeysOnly searchKey
        let node2 := buildSubtree node1 keyList node.name
        let node3 := node2.withIcon
          (if searchKey = "" then "img/connected.ico" else "img/search.ico")
        (node3, false)
    | none => (node, false)
  | none => (node, false)

/-- Embedding of `disconnect` (main.go lines 751-760).  The children are
cleared, then the config is looked up under `node.rootName` — not
`node.name` as `connect` and `search` do — and its client, if any, is
closed and cleared; finally the icon reverts to unconnected and the
`connected` flag is cleared. -/
def disconnect (configs : List (String × EtcdConfig)) (node : GNode) :
    List (String × EtcdConfig) × GNode :=
  let node1 := node.withChildren []
  let configs1 :=
    match lookupConfig configs node.rootName with
    | some ec =>
      match ec.Client with
      | some _ => setClient configs node.rootName none
      | none => configs
    | none => configs
  let node2 := (node1.withIcon "img/unconnected.ico").withConnected false
  (configs1, node2)

/-! ## Observations on trees: leaves, directories, label paths -/

/-- Labels of the nodes of a children list. -/
def namesOf (cs : List GNode) : List String :=
  cs.map GNode.name

/-- All (label-path, fullKey) pairs of the childless nodes in the forest
`cs`: the "Leaf" nodes with the full key each carries. -/
def leafKV : List GNode → List (List String × String)
  | [] => []
  | .mk n k _ _ _ [] :: cs => ([n], k) :: leafKV cs
  | .mk n _ _ _ _ (c :: ccs) :: cs =>
    (leafKV (c :: ccs)).map (fun e => (n :: e.1, e.2)) ++ leafKV cs

/-- The label paths of *all* nodes in the forest `cs` (one entry per
node, so its length is the total node count). -/
def nodePaths : List GNode → List (List String)
  | [] => []
  | .mk n _ _ _ _ ccs :: cs =>
    ([n] :: (nodePaths ccs).map (fun q => n :: q)) ++ nodePaths cs

/-- Number of childless ("Leaf") nodes in the forest. -/
def countLeaves : List GNode → Nat
  | [] => 0
  | .mk _ _ _ _ _ [] :: cs => 1 + countLeaves cs
  | .mk _ _ _ _ _ (c :: ccs) :: cs => countLeaves (c :: ccs) + countLeaves cs

/-- Number of nodes with children ("Directory" nodes) in the forest. -/
def countDirs : List GNode → Nat
  | [] => 0
  | .mk _ _ _ _ _ [] :: cs => countDirs cs
  | .mk _ _ _ _ _ (c :: ccs) :: cs => 1 + countDirs (c :: ccs) + countDirs cs

/-- Sibling labels are pairwise distinct, at every level of the forest. -/
def uniqL : List GNode → Bool
  | [] => true
  | .mk n _ _ _ _ ccs :: cs =>
    !(namesOf cs).contains n && uniqL ccs && uniqL cs

/-- Every childless node carries the file icon and every node with
children carries the directory icon, throughout the forest. -/
def iconsOk : List GNode → Bool
  | [] => true
  | .mk _ _ ic _ _ [] :: cs => ic = "img/file.ico" && iconsOk cs
  | .mk _ _ ic _ _ (c :: ccs) :: cs =>
    ic = "img/dir.ico" && iconsOk (c :: ccs) && iconsOk cs

/-- The `key` fields of all nodes of the forest. -/
def keysIn : List GNode → List String
  | [] => []
  | .mk _ k _ _ _ ccs :: cs => k :: (keysIn ccs ++ keysIn cs)

/-- The subtree built from the spec's worked example
`["/a/b/c", "/a/b/d", "/a/e"]`, in explicit form. -/
theorem example_tree_eq :
    (buildSubtree (connRootNode "r") ["/a/b/c", "/a/b/d", "/a/e"] "r").children
      = [.mk "a" "/a/b/c" "img/dir.ico" "r" false
          [.mk "b" "/a/b/c" "img/dir.ico" "r" false
            [.mk "c" "/a/b/c" "img/file.ico" "r" false [],
             .mk "d" "/a/b/d" "img/file.ico" "r" false []],
           .mk "e" "/a/e" "img/file.ico" "r" false []]] := rfl

example :
    countLeaves (buildSubtree (connRootNode "r") ["/a/b/c", "/a/b/d", "/a/e"] "r").children
      = 3 := by rw [example_tree_eq]; simp [countLeaves]
example :
    countDirs (buildSubtree (connRootNode "r") ["/a/b/c", "/a/b/d", "/a/e"] "r").children
      = 2 := by rw [example_tree_eq]; simp [countDirs]

/-! ## Groundwork: field algebra of `GNode` -/

@[simp] theorem name_mk (n k i r c cs) : (GNode.mk n k i r c cs).name = n := rfl
@[simp] theorem key_mk (n k i r c cs) : (GNode.mk n k i r c cs).key = k := rfl
@[simp] theorem icon_mk (n k i r c cs) : (GNode.mk n k i r c cs).icon = i := rfl
@[simp] theorem rootName_mk (n k i r c cs) : (GNode.mk n k i r c cs).rootName = r := rfl
@[simp] theorem connected_mk (n k i r c cs) : (GNode.mk n k i r c cs).connected = c := rfl
@[simp] theorem children_mk (n k i r c cs) : (GNode.mk n k i r c cs).children = cs := rfl

@[simp] theorem children_withChildren (d : GNode) (cs : List GNode) :
    (d.withChildren cs).children = cs := by cases d; rfl

@[simp] theorem name_withChildren (d : GNode) (cs : List GNode) :
    (d.withChildren cs).name = d.name := by cases d; rfl

@[simp] theorem key_withChildren (d : GNode) (cs : List GNode) :
    (d.withChildren cs).key = d.key := by cases d; rfl

@[simp] theorem icon_withChildren (d : GNode) (cs : List GNode) :
    (d.withChildren cs).icon = d.icon := by cases d; rfl

@[simp] theorem rootName_withChildren (d : GNode) (cs : List GNode) :
    (d.withChildren cs).rootName = d.rootName := by cases d; rfl

@[simp] theorem connected_withChildren (d : GNode) (cs : List GNode) :
    (d.withChildren cs).connected = d.connected := by cases d; rfl

@[simp] theorem withChildren_withChildren (d : GNode) (cs cs' : List GNode) :
    (d.withChildren cs).withChildren cs' = d.withChildren cs' := by cases d; rfl

@[simp] theorem withChildren_children (d : GNode) : d.withChildren d.children = d := by
  cases d; rfl

@[simp] theorem children_withIcon (d : GNode) (i : String) :
    (d.withIcon i).children = d.children := by cases d; rfl

@[simp] theorem name_withIcon (d : GNode) (i : String) :
    (d.withIcon i).name = d.name := by cases d; rfl

@[simp] theorem children_withConnected (d : GNode) (b : Bool) :
    (d.withConnected b).children = d.children := by cases d; rfl

@[simp] theorem name_withConnected (d : GNode) (b : Bool) :
    (d.withConnected b).name = d.name := by cases d; rfl

@[simp] theorem connected_withConnected (d : GNode) (b : Bool) :
    (d.withConnected b).connected = b := by cases d; rfl

/-- `addNode` only rewrites the `children` field of the target node. -/
theorem addNode_eq_withChildren (d : GNode) (keys : List String) (key rootName : String) :
    d.addNode keys key rootName = d.withChildren (addNodeL d.children keys key rootName) := by
  cases keys with
  | nil => simp [GNode.addNode, addNodeL]
  | cons s rest =>
    unfold GNode.addNode addNodeL
    cases h : lastIdx d.children s <;> simp [h]

/-- The children-list form of the subtree-population loop. -/
def buildSubtreeL (cs : List GNode) (keyList : List String) (rootName : String) :
    List GNode :=
  keyList.foldl (fun l k => addNodeL l (splitKey k) k rootName) cs

theorem buildSubtree_eq (node : GNode) (keyList : List String) (rootName : String) :
    buildSubtree node keyList rootName
      = node.withChildren (buildSubtreeL node.children keyList rootName) := by
  induction keyList generalizing node with
  | nil => simp [buildSubtree, buildSubtreeL]
  | cons k ks ih =>
    show buildSubtree (node.addNode (splitKey k) k rootName) ks rootName = _
    rw [ih, addNode_eq_withChildren]
    simp [buildSubtreeL]

/-! ## Groundwork: `lastIdx` and the two shapes of one insertion step -/

theorem lastIdx_cons (c : GNode) (cs : List GNode) (s : String) :
    lastIdx (c :: cs) s =
      match lastIdx cs s with
      | some i => some (i + 1)
      | none => if c.name = s then some 0 else none := rfl

theorem addNodeL_cons (cs : List GNode) (s : String) (rest : List String)
    (key rn : String) :
    addNodeL cs (s :: rest) key rn =
      match lastIdx cs s with
      | some i => cs.set i ((cs.getD i dfltNode).addNode rest key rn)
      | none =>
          cs ++ [(newNode s key
            (if rest.isEmpty then "img/file.ico" else "img/dir.ico") rn).addNode
              rest key rn] := rfl

theorem lastIdx_eq_none_iff (cs : List GNode) (s : String) :
    lastIdx cs s = none ↔ ∀ c ∈ cs, c.name ≠ s := by
  induction cs with
  | nil => simp [lastIdx]
  | cons c t ih =>
    rw [lastIdx_cons]
    cases h : lastIdx t s with
    | some i =>
      dsimp only
      constructor
      · intro hc; cases hc
      · intro hall
        have hnone := ih.2 (fun x hx => hall x (List.mem_cons_of_mem _ hx))
        rw [h] at hnone; cases hnone
    | none =>
      dsimp only
      constructor
      · intro hc x hx
        rcases List.mem_cons.1 hx with rfl | hx'
        · intro hxs; rw [hxs] at hc; simp at hc
        · exact (ih.1 h) x hx'
      · intro hall
        rw [if_neg (hall c (List.mem_cons_self c t))]

/-- The fresh branch appended by `addNode` when a segment has no matching
sibling: a single chain of nodes, one per remaining segment, each
carrying the full key, with directory icons above a final file icon. -/
def chainNode (s : String) (rest : List String) (key rn : String) : GNode :=
  match rest with
  | [] => .mk s key "img/file.ico" rn false []
  | t :: rest' => .mk s key "img/dir.ico" rn false [chainNode t rest' key rn]

theorem addNode_newNode_eq_chain (rest : List String) (s key rn : String) :
    GNode.addNode
        (newNode s key (if rest.isEmpty then "img/file.ico" else "img/dir.ico") rn)
        rest key rn
      = chainNode s rest key rn := by
  induction rest generalizing s with
  | nil => rfl
  | cons t rest' ih =>
    show GNode.addNode (newNode s key "img/dir.ico" rn) (t :: rest') key rn = _
    rw [addNode_eq_withChildren]
    have h1 : addNodeL (newNode s key "img/dir.ico" rn).children (t :: rest') key rn
        = [(newNode t key
            (if rest'.isEmpty then "img/file.ico" else "img/dir.ico") rn).addNode
              rest' key rn] := rfl
    rw [h1, ih t]
    rfl

/-- One insertion step when the first segment has no matching sibling:
the forest grows by one fresh chain at the end. -/
theorem addNodeL_none (cs : List GNode) (s : String) (rest : List String)
    (key rn : String) (h : lastIdx cs s = none) :
    addNodeL cs (s :: rest) key rn = cs ++ [chainNode s rest key rn] := by
  rw [addNodeL_cons, h, addNode_newNode_eq_chain]

/-- One insertion step when the first segment has a matching sibling:
the forest splits as `l1 ++ c :: l2` around the *last* match `c`, and the
step descends into `c` in place. -/
theorem addNodeL_some (cs : List GNode) (s : String) (i : Nat)
    (h : lastIdx cs s = some i) (rest : List String) (key rn : String) :
    ∃ l1 c l2, cs = l1 ++ c :: l2 ∧ l1.length = i ∧ c.name = s ∧
      (∀ x ∈ l2, x.name ≠ s) ∧
      addNodeL cs (s :: rest) key rn = l1 ++ (c.addNode rest key rn) :: l2 := by
  induction cs generalizing i with
  | nil => simp [lastIdx] at h
  | cons c0 t ih =>
    rw [lastIdx_cons] at h
    cases h' : lastIdx t s with
    | some j =>
      rw [h'] at h
      obtain rfl : j + 1 = i := by simpa using h
      obtain ⟨l1, c, l2, ht, hlen, hname, hl2, hstep⟩ := ih j h'
      refine ⟨c0 :: l1, c, l2, by simp [ht], by simp [hlen], hname, hl2, ?_⟩
      rw [addNodeL_cons, lastIdx_cons, h']
      dsimp only
      rw [addNodeL_cons, h'] at hstep
      dsimp only at hstep
      rw [show (c0 :: t).getD (j + 1) dfltNode = t.getD j dfltNode from rfl]
      rw [show ((c0 :: t).set (j + 1) ((t.getD j dfltNode).addNode rest key rn))
            = c0 :: t.set j ((t.getD j dfltNode).addNode rest key rn) from rfl]
      rw [hstep]
      simp
    | none =>
      rw [h'] at h
      by_cases hc : c0.name = s
      · rw [hc] at h
        simp only [if_pos rfl] at h
        obtain rfl : 0 = i := by simpa using h
        refine ⟨[], c0, t, rfl, rfl, hc, (lastIdx_eq_none_iff t s).1 h', ?_⟩
        rw [addNodeL_cons, lastIdx_cons, h', hc]
        dsimp only
        rw [if_pos rfl]
        rfl
      · rw [if_neg hc] at h
        simp at h

/-! ## Groundwork: how the observations decompose over forests -/

theorem namesOf_append (xs ys : List GNode) :
    namesOf (xs ++ ys) = namesOf xs ++ namesOf ys := by
  simp [namesOf]

theorem leafKV_append (xs ys : List GNode) :
    leafKV (xs ++ ys) = leafKV xs ++ leafKV ys := by
  induction xs with
  | nil => simp [leafKV]
  | cons c t ih =>
    cases c with
    | mk n k i r b ccs =>
      cases ccs with
      | nil => simp [leafKV, ih]
      | cons c' cc => simp [leafKV, ih]

theorem nodePaths_append (xs ys : List GNode) :
    nodePaths (xs ++ ys) = nodePaths xs ++ nodePaths ys := by
  induction xs with
  | nil => simp [nodePaths]
  | cons c t ih =>
    cases c with
    | mk n k i r b ccs => simp [nodePaths, ih]

theorem countLeaves_append (xs ys : List GNode) :
    countLeaves (xs ++ ys) = countLeaves xs + countLeaves ys := by
  induction xs with
  | nil => simp [countLeaves]
  | cons c t ih =>
    cases c with
    | mk n k i r b ccs =>
      cases ccs with
      | nil => simp [countLeaves, ih]; omega
      | cons c' cc => simp [countLeaves, ih]; omega

theorem countDirs_append (xs ys : List GNode) :
    countDirs (xs ++ ys) = countDirs xs + countDirs ys := by
  induction xs with
  | nil => simp [countDirs]
  | cons c t ih =>
    cases c with
    | mk n k i r b ccs =>
      cases ccs with
      | nil => simp [countDirs, ih]
      | cons c' cc => simp [countDirs, ih]; omega

theorem keysIn_append (xs ys : List GNode) :
    keysIn (xs ++ ys) = keysIn xs ++ keysIn ys := by
  induction xs with
  | nil => simp [keysIn]
  | cons c t ih =>
    cases c with
    | mk n k i r b ccs => simp [keysIn, ih]

theorem iconsOk_append (xs ys : List GNode) :
    iconsOk (xs ++ ys) = (iconsOk xs && iconsOk ys) := by
  induction xs with
  | nil => simp [iconsOk]
  | cons c t ih =>
    cases c with
    | mk n k i r b ccs =>
      cases ccs with
      | nil => simp [iconsOk, ih, Bool.and_assoc]
      | cons c' cc => simp [iconsOk, ih, Bool.and_assoc]

theorem namesOf_cons (c : GNode) (t : List GNode) :
    namesOf (c :: t) = c.name :: namesOf t := rfl

theorem uniqL_cons_iff (c : GNode) (t : List GNode) :
    uniqL (c :: t) = true ↔
      c.name ∉ namesOf t ∧ uniqL c.children = true ∧ uniqL t = true := by
  cases c with
  | mk n k i r b ccs =>
    simp [uniqL, List.elem_iff, namesOf, and_assoc]

theorem uniqL_append_iff (xs ys : List GNode) :
    uniqL (xs ++ ys) = true ↔
      uniqL xs = true ∧ uniqL ys = true ∧ ∀ n ∈ namesOf xs, n ∉ namesOf ys := by
  induction xs with
  | nil => simp [uniqL, namesOf]
  | cons c t ih =>
    rw [List.cons_append, uniqL_cons_iff, uniqL_cons_iff, namesOf_append]
    constructor
    · rintro ⟨hn, hcc, htys⟩
      rw [ih] at htys
      obtain ⟨ht, hys, hdisj⟩ := htys
      simp only [List.mem_append, not_or] at hn
      refine ⟨⟨hn.1, hcc, ht⟩, hys, ?_⟩
      intro m hm
      rcases (show m = c.name ∨ m ∈ namesOf t by
        rw [namesOf_cons] at hm; exact List.mem_cons.1 hm) with rfl | hm'
      · exact hn.2
      · exact hdisj m hm'
    · rintro ⟨⟨hn, hcc, ht⟩, hys, hdisj⟩
      refine ⟨?_, hcc, ?_⟩
      · simp only [List.mem_append, not_or]
        exact ⟨hn, hdisj c.name (by rw [namesOf_cons]; exact List.mem_cons_self _ _)⟩
      · rw [ih]
        exact ⟨ht, hys, fun m hm =>
          hdisj m (by rw [namesOf_cons]; exact List.mem_cons_of_mem _ hm)⟩

theorem nodePaths_cons (c : GNode) (cs : List GNode) :
    nodePaths (c :: cs)
      = ([c.name] :: (nodePaths c.children).map (fun q => c.name :: q))
          ++ nodePaths cs := by
  cases c with
  | mk n k i r b ccs => simp [nodePaths]

theorem leafKV_cons_of_leaf (c : GNode) (cs : List GNode) (h : c.children = []) :
    leafKV (c :: cs) = ([c.name], c.key) :: leafKV cs := by
  cases c with
  | mk n k i r b ccs =>
    cases ccs with
    | nil => simp [leafKV]
    | cons c' cc => simp at h

theorem leafKV_cons_of_dir (c : GNode) (cs : List GNode) (h : c.children ≠ []) :
    leafKV (c :: cs)
      = (leafKV c.children).map (fun e => (c.name :: e.1, e.2)) ++ leafKV cs := by
  cases c with
  | mk n k i r b ccs =>
    cases ccs with
    | nil => simp at h
    | cons c' cc => simp [leafKV]

theorem keysIn_cons (c : GNode) (cs : List GNode) :
    keysIn (c :: cs) = c.key :: (keysIn c.children ++ keysIn cs) := by
  cases c with
  | mk n k i r b ccs => simp [keysIn]

theorem iconsOk_cons_iff (c : GNode) (cs : List GNode) :
    iconsOk (c :: cs) = true ↔
      (c.icon = (if c.children.isEmpty then "img/file.ico" else "img/dir.ico"))
        ∧ iconsOk c.children = true ∧ iconsOk cs = true := by
  cases c with
  | mk n k i r b ccs =>
    cases ccs with
    | nil => simp [iconsOk]
    | cons c' cc => simp [iconsOk, and_assoc]

theorem mem_nodePaths_iff (cs : List GNode) (q : List String) :
    q ∈ nodePaths cs ↔
      ∃ c ∈ cs, q = [c.name]
        ∨ ∃ q', q = c.name :: q' ∧ q' ∈ nodePaths c.children := by
  induction cs with
  | nil => simp [nodePaths]
  | cons c t ih =>
    rw [nodePaths_cons]
    simp only [List.mem_append, List.mem_cons, List.mem_map, ih]
    constructor
    · rintro ((rfl | ⟨q', hq', rfl⟩) | ⟨c', hc', hd⟩)
      · exact ⟨c, Or.inl rfl, Or.inl rfl⟩
      · exact ⟨c, Or.inl rfl, Or.inr ⟨q', rfl, hq'⟩⟩
      · exact ⟨c', Or.inr hc', hd⟩
    · rintro ⟨c', rfl | hc'', hd⟩
      · rcases hd with rfl | ⟨q', rfl, hq'⟩
        · exact Or.inl (Or.inl rfl)
        · exact Or.inl (Or.inr ⟨q', hq', rfl⟩)
      · exact Or.inr ⟨c', hc'', hd⟩

theorem mem_leafPaths_iff (cs : List GNode) (q : List String) :
    q ∈ (leafKV cs).map Prod.fst ↔
      ∃ c ∈ cs, (c.children = [] ∧ q = [c.name])
        ∨ ∃ q', q = c.name :: q' ∧ q' ∈ (leafKV c.children).map Prod.fst := by
  induction cs with
  | nil => simp [leafKV]
  | cons c t ih =>
    rcases hcc : c.children with _ | ⟨c', cc⟩
    · rw [leafKV_cons_of_leaf c t hcc]
      simp only [List.map_cons, List.mem_cons, ih]
      constructor
      · rintro (rfl | ⟨x, hx, hd⟩)
        · exact ⟨c, Or.inl rfl, Or.inl ⟨hcc, rfl⟩⟩
        · exact ⟨x, Or.inr hx, hd⟩
      · rintro ⟨x, rfl | hx', hd⟩
        · rcases hd with ⟨_, rfl⟩ | ⟨q', rfl, hq'⟩
          · exact Or.inl rfl
          · rw [hcc] at hq'; simp [leafKV] at hq'
        · exact Or.inr ⟨x, hx', hd⟩
    · rw [leafKV_cons_of_dir c t (by rw [hcc]; simp)]
      simp only [List.map_append, List.map_map, List.mem_append, List.mem_map,
        List.mem_cons, Function.comp, ih]
      constructor
      · rintro (⟨e, he, rfl⟩ | ⟨x, hx, hd⟩)
        · exact ⟨c, Or.inl rfl, Or.inr ⟨e.1, rfl, e, he, rfl⟩⟩
        · exact ⟨x, Or.inr hx, hd⟩
      · rintro ⟨x, rfl | hx', hd⟩
        · rcases hd with ⟨hnil, _⟩ | ⟨q', rfl, e, he, hfst⟩
          · rw [hcc] at hnil; cases hnil
          · exact Or.inl ⟨e, he, by rw [hfst]⟩
        · exact Or.inr ⟨x, hx', hd⟩

/-! ## Observations of a fresh chain -/

theorem name_chainNode (s : String) (rest : List String) (key rn : String) :
    (chainNode s rest key rn).name = s := by
  cases rest with
  | nil => rfl
  | cons t rest' => rfl

theorem leafKV_chain (rest : List String) (s key rn : String) :
    leafKV [chainNode s rest key rn] = [(s :: rest, key)] := by
  induction rest generalizing s with
  | nil => simp [chainNode, leafKV]
  | cons t rest' ih =>
    show leafKV [GNode.mk s key "img/dir.ico" rn false [chainNode t rest' key rn]]
      = _
    rw [show (GNode.mk s key "img/dir.ico" rn false [chainNode t rest' key rn]
          :: ([] : List GNode)) = [GNode.mk s key "img/dir.ico" rn false
            [chainNode t rest' key rn]] from rfl] at *
    rw [leafKV_cons_of_dir _ _ (by simp)]
    simp only [children_mk, ih t, leafKV]
    simp

theorem mem_nodePaths_chain (rest : List String) (s key rn : String)
    (q : List String) :
    q ∈ nodePaths [chainNode s rest key rn] ↔ q ≠ [] ∧ q <+: (s :: rest) := by
  induction rest generalizing s q with
  | nil =>
    show q ∈ nodePaths [GNode.mk s key "img/file.ico" rn false []] ↔ _
    rw [nodePaths_cons]
    simp only [children_mk, nodePaths, name_mk, List.map_nil, List.append_nil,
      List.mem_singleton]
    constructor
    · rintro rfl
      exact ⟨by simp, List.prefix_refl _⟩
    · rintro ⟨hne, hpfx⟩
      cases q with
      | nil => simp at hne
      | cons a q' =>
        rw [List.cons_prefix_cons] at hpfx
        obtain ⟨rfl, hq'⟩ := hpfx
        rw [List.eq_nil_of_prefix_nil hq']
  | cons t rest' ih =>
    show q ∈ nodePaths [GNode.mk s key "img/dir.ico" rn false
      [chainNode t rest' key rn]] ↔ _
    rw [nodePaths_cons]
    simp only [children_mk, name_mk, nodePaths, List.append_nil, List.mem_cons,
      List.mem_map, List.not_mem_nil, or_false]
    constructor
    · rintro (rfl | ⟨q', hq', rfl⟩)
      · exact ⟨by simp, by
          rw [List.cons_prefix_cons]; exact ⟨rfl, List.nil_prefix⟩⟩
      · obtain ⟨hne, hpfx⟩ := (ih t q').1 hq'
        exact ⟨by simp, by rw [List.cons_prefix_cons]; exact ⟨rfl, hpfx⟩⟩
    · rintro ⟨hne, hpfx⟩
      cases q with
      | nil => simp at hne
      | cons a q'' =>
        rw [List.cons_prefix_cons] at hpfx
        obtain ⟨rfl, hq''⟩ := hpfx
        cases q'' with
        | nil => exact Or.inl rfl
        | cons b qt =>
          exact Or.inr ⟨b :: qt, (ih t (b :: qt)).2 ⟨by simp, hq''⟩, rfl⟩

theorem uniqL_chain (rest : List String) (s key rn : String) :
    uniqL [chainNode s rest key rn] = true := by
  induction rest generalizing s with
  | nil => simp [chainNode, uniqL, namesOf]
  | cons t rest' ih =>
    show uniqL [GNode.mk s key "img/dir.ico" rn false [chainNode t rest' key rn]]
      = true
    rw [uniqL_cons_iff]
    exact ⟨by simp [namesOf], by simpa using ih t, by simp [uniqL]⟩

theorem iconsOk_chain (rest : List String) (s key rn : String) :
    iconsOk [chainNode s rest key rn] = true := by
  induction rest generalizing s with
  | nil => simp [chainNode, iconsOk]
  | cons t rest' ih =>
    show iconsOk [GNode.mk s key "img/dir.ico" rn false [chainNode t rest' key rn]]
      = true
    rw [iconsOk_cons_iff]
    refine ⟨by simp, by simpa using ih t, by simp [iconsOk]⟩

theorem keysIn_chain (rest : List String) (s key rn : String) :
    ∀ x ∈ keysIn [chainNode s rest key rn], x = key := by
  induction rest generalizing s with
  | nil =>
    intro x hx
    simp [chainNode, keysIn] at hx
    exact hx
  | cons t rest' ih =>
    intro x hx
    rw [show chainNode s (t :: rest') key rn = GNode.mk s key "img/dir.ico" rn
      false [chainNode t rest' key rn] from rfl, keysIn_cons] at hx
    simp only [children_mk, key_mk, List.append_nil, keysIn, List.mem_cons] at hx
    rcases hx with rfl | hx'
    · rfl
    · exact ih t x (by simpa [keysIn] using hx')

/-! ## The effect of inserting one fresh, prefix-compatible path -/

theorem length_addNodeL_ge (cs : List GNode) (p : List String) (key rn : String) :
    cs.length ≤ (addNodeL cs p key rn).length := by
  cases p with
  | nil => simp [addNodeL]
  | cons s rest =>
    rw [addNodeL_cons]
    cases lastIdx cs s with
    | some i => simp
    | none => simp

theorem addNodeL_ne_nil (cs : List GNode) (p : List String) (key rn : String)
    (h : cs ≠ []) : addNodeL cs p key rn ≠ [] := by
  have hlen := length_addNodeL_ge cs p key rn
  intro hnil
  rw [hnil] at hlen
  simp only [List.length_nil, Nat.le_zero] at hlen
  exact h (List.eq_nil_of_length_eq_zero hlen)

theorem ne_nil_prefix_cons_iff (s : String) (rest q : List String) :
    (q ≠ [] ∧ q <+: s :: rest) ↔
      (q = [s] ∨ ∃ q', q = s :: q' ∧ q' ≠ [] ∧ q' <+: rest) := by
  constructor
  · rintro ⟨hne, hpfx⟩
    cases q with
    | nil => simp at hne
    | cons a q' =>
      rw [List.cons_prefix_cons] at hpfx
      obtain ⟨rfl, hq'⟩ := hpfx
      cases q' with
      | nil => exact Or.inl rfl
      | cons b qt => exact Or.inr ⟨b :: qt, rfl, by simp, hq'⟩
  · rintro (rfl | ⟨q', rfl, hne', hpfx⟩)
    · exact ⟨by simp, List.cons_prefix_cons.2 ⟨rfl, List.nil_prefix⟩⟩
    · exact ⟨by simp, List.cons_prefix_cons.2 ⟨rfl, hpfx⟩⟩

theorem addNodeL_insert (p : List String) : ∀ (cs : List GNode) (key rn : String),
    uniqL cs = true → iconsOk cs = true → p ≠ [] → p ∉ nodePaths cs →
    (∀ q ∈ (leafKV cs).map Prod.fst, ¬ q <+: p) →
    uniqL (addNodeL cs p key rn) = true ∧
    iconsOk (addNodeL cs p key rn) = true ∧
    (leafKV (addNodeL cs p key rn)).Perm ((p, key) :: leafKV cs) ∧
    (∀ q, q ∈ nodePaths (addNodeL cs p key rn) ↔
      q ∈ nodePaths cs ∨ (q ≠ [] ∧ q <+: p)) ∧
    (∀ x ∈ keysIn (addNodeL cs p key rn), x ∈ keysIn cs ∨ x = key) := by
  induction p with
  | nil => intro cs key rn _ _ hne _ _; exact absurd rfl hne
  | cons s rest ih =>
    intro cs key rn hu hico _ hnot hleaf
    cases hli : lastIdx cs s with
    | none =>
      rw [addNodeL_none cs s rest key rn hli]
      have hfresh : ∀ n ∈ namesOf cs, n ∉ namesOf [chainNode s rest key rn] := by
        intro n hn
        obtain ⟨c, hc, rfl⟩ := List.mem_map.1 hn
        simp only [namesOf, List.map_cons, List.map_nil, List.mem_singleton,
          name_chainNode]
        exact (lastIdx_eq_none_iff cs s).1 hli c hc
      refine ⟨?_, ?_, ?_, ?_, ?_⟩
      · exact (uniqL_append_iff _ _).2 ⟨hu, uniqL_chain _ _ _ _, hfresh⟩
      · rw [iconsOk_append]
        simp [hico, iconsOk_chain]
      · rw [leafKV_append, leafKV_chain]
        exact List.perm_append_singleton _ _
      · intro q
        rw [nodePaths_append]
        simp only [List.mem_append, mem_nodePaths_chain]
      · intro x hx
        rw [keysIn_append] at hx
        rcases List.mem_append.1 hx with h1 | h2
        · exact Or.inl h1
        · exact Or.inr (keysIn_chain rest s key rn x h2)
    | some i =>
      obtain ⟨l1, c, l2, rfl, hlen, hcname, hl2, hstep⟩ :=
        addNodeL_some _ s i hli rest key rn
      rw [hstep]
      obtain ⟨hu1, hu2, hdisj⟩ := (uniqL_append_iff l1 (c :: l2)).1 hu
      obtain ⟨hcn2, hucc, hul2⟩ := (uniqL_cons_iff c l2).1 hu2
      rw [iconsOk_append, Bool.and_eq_true] at hico
      obtain ⟨hico1, hico2⟩ := hico
      obtain ⟨hcicon, hicocc, hicol2⟩ := (iconsOk_cons_iff c l2).1 hico2
      cases hrest : rest with
      | nil =>
        exfalso
        apply hnot
        subst hrest
        exact (mem_nodePaths_iff _ _).2 ⟨c, by simp, Or.inl (by rw [hcname])⟩
      | cons t rest' =>
        subst hrest
        cases hcc : c.children with
        | nil =>
          exfalso
          apply hleaf [c.name]
            ((mem_leafPaths_iff _ _).2 ⟨c, by simp, Or.inl ⟨hcc, rfl⟩⟩)
          rw [hcname]
          exact List.cons_prefix_cons.2 ⟨rfl, List.nil_prefix⟩
        | cons c0 cc0 =>
          have hccne : c.children ≠ [] := by rw [hcc]; simp
          have ihres := ih c.children key rn hucc hicocc (by simp)
            (fun hmem => hnot ((mem_nodePaths_iff _ _).2
              ⟨c, by simp, Or.inr ⟨t :: rest', by rw [hcname], hmem⟩⟩))
            (fun q' hq' hpfx => hleaf (c.name :: q')
              ((mem_leafPaths_iff _ _).2 ⟨c, by simp, Or.inr ⟨q', rfl, hq'⟩⟩)
              (by rw [hcname]; exact List.cons_prefix_cons.2 ⟨rfl, hpfx⟩))
          obtain ⟨ihu, ihicons, ihperm, ihpaths, ihkeys⟩ := ihres
          rw [addNode_eq_withChildren]
          have hccne' : addNodeL c.children (t :: rest') key rn ≠ [] :=
            addNodeL_ne_nil _ _ _ _ hccne
          refine ⟨?_, ?_, ?_, ?_, ?_⟩
          · refine (uniqL_append_iff _ _).2 ⟨hu1, ?_, ?_⟩
            · exact (uniqL_cons_iff _ _).2
                ⟨by rw [name_withChildren]; exact hcn2,
                 by rw [children_withChildren]; exact ihu, hul2⟩
            · intro n hn
              have hthis := hdisj n hn
              rw [namesOf_cons] at hthis ⊢
              rw [name_withChildren]
              exact hthis
          · rw [iconsOk_append, Bool.and_eq_true]
            refine ⟨hico1, (iconsOk_cons_iff _ _).2 ⟨?_, ?_, hicol2⟩⟩
            · have h1 : (addNodeL c.children (t :: rest') key rn).isEmpty = false := by
                cases he : addNodeL c.children (t :: rest') key rn with
                | nil => exact absurd he hccne'
                | cons a l => rfl
              have h2 : c.children.isEmpty = false := by rw [hcc]; rfl
              rw [icon_withChildren, children_withChildren, h1, hcicon, h2]
            · rw [children_withChildren]; exact ihicons
          · have hmap := ihperm.map (fun e => (c.name :: e.1, e.2))
            simp only [List.map_cons] at hmap
            rw [leafKV_append,
              leafKV_cons_of_dir _ _ (by rw [children_withChildren]; exact hccne')]
            simp only [children_withChildren, name_withChildren]
            rw [leafKV_append, leafKV_cons_of_dir c l2 hccne]
            refine ((List.Perm.append_left (leafKV l1)
              (List.Perm.append_right (leafKV l2) hmap)).trans ?_)
            rw [List.cons_append]
            refine List.perm_middle.trans ?_
            rw [hcname]
          · intro q
            have hmemNew : q ∈ nodePaths (l1 ++
                (c.withChildren (addNodeL c.children (t :: rest') key rn)) :: l2) ↔
                (q ∈ nodePaths l1 ∨ (q = [s] ∨ ∃ a,
                  a ∈ nodePaths (addNodeL c.children (t :: rest') key rn) ∧
                    s :: a = q) ∨ q ∈ nodePaths l2) := by
              rw [nodePaths_append, nodePaths_cons]
              simp only [children_withChildren, name_withChildren, hcname,
                List.mem_append, List.mem_cons, List.mem_map]
            have hmemOld : q ∈ nodePaths (l1 ++ c :: l2) ↔
                (q ∈ nodePaths l1 ∨ (q = [s] ∨ ∃ a,
                  a ∈ nodePaths c.children ∧ s :: a = q) ∨ q ∈ nodePaths l2) := by
              rw [nodePaths_append, nodePaths_cons]
              simp only [hcname, List.mem_append, List.mem_cons, List.mem_map]
            rw [hmemNew, hmemOld, ne_nil_prefix_cons_iff]
            constructor
            · rintro (h1 | (rfl | ⟨a, ha, rfl⟩) | h2)
              · exact Or.inl (Or.inl h1)
              · exact Or.inl (Or.inr (Or.inl (Or.inl rfl)))
              · rcases (ihpaths a).1 ha with hold | ⟨hane, hapfx⟩
                · exact Or.inl (Or.inr (Or.inl (Or.inr ⟨a, hold, rfl⟩)))
                · exact Or.inr (Or.inr ⟨a, rfl, hane, hapfx⟩)
              · exact Or.inl (Or.inr (Or.inr h2))
            · rintro ((h1 | (rfl | ⟨a, ha, rfl⟩) | h2) | (rfl | ⟨q', rfl, hq'ne, hq'pfx⟩))
              · exact Or.inl h1
              · exact Or.inr (Or.inl (Or.inl rfl))
              · exact Or.inr (Or.inl (Or.inr ⟨a, (ihpaths a).2 (Or.inl ha), rfl⟩))
              · exact Or.inr (Or.inr h2)
              · exact Or.inr (Or.inl (Or.inl rfl))
              · exact Or.inr (Or.inl (Or.inr
                  ⟨q', (ihpaths q').2 (Or.inr ⟨hq'ne, hq'pfx⟩), rfl⟩))
          · intro x hx
            rw [keysIn_append, keysIn_cons] at hx
            simp only [children_withChildren, key_withChildren] at hx
            rw [keysIn_append, keysIn_cons]
            simp only [List.mem_append, List.mem_cons] at hx ⊢
            rcases hx with h1 | rfl | h3 | h4
            · exact Or.inl (Or.inl h1)
            · exact Or.inl (Or.inr (Or.inl rfl))
            · rcases ihkeys x h3 with hold | rfl
              · exact Or.inl (Or.inr (Or.inr (Or.inl hold)))
              · exact Or.inr rfl
            · exact Or.inl (Or.inr (Or.inr (Or.inr h4)))

/-! ## Building a whole forest from a prefix-free key list -/

/-- Induction over a forest that also descends into children. -/
theorem forest_ind (P : List GNode → Prop)
    (h0 : P [])
    (h1 : ∀ n k i r b cs, P cs → P (GNode.mk n k i r b [] :: cs))
    (h2 : ∀ n k i r b c cc cs, P (c :: cc) → P cs →
      P (GNode.mk n k i r b (c :: cc) :: cs)) :
    ∀ cs, P cs := by
  have key : ∀ m (cs : List GNode), sizeOf cs ≤ m → P cs := by
    intro m
    induction m with
    | zero =>
      intro cs h
      cases cs with
      | nil => exact h0
      | cons c t => simp at h
    | succ m ihm =>
      intro cs hle
      cases cs with
      | nil => exact h0
      | cons c t =>
        cases c with
        | mk n k i r b ccs =>
          cases ccs with
          | nil =>
            refine h1 n k i r b t (ihm t ?_)
            simp at hle
            omega
          | cons c0 cc =>
            refine h2 n k i r b c0 cc t (ihm _ ?_) (ihm t ?_)
            · simp at hle
              simp
              omega
            · simp at hle
              omega
  exact fun cs => key (sizeOf cs) cs (Nat.le_refl _)

theorem splitSeg_ne_nil (l : List Char) : splitSeg l ≠ [] := by
  induction l with
  | nil => simp [splitSeg]
  | cons c cs ih =>
    rw [splitSeg]
    by_cases hc : c = '/'
    · simp [hc]
    · rw [if_neg hc]
      cases h : splitSeg cs with
      | nil => simp
      | cons a t => simp

theorem splitKey_ne_nil (k : String) : splitKey k ≠ [] :=
  splitSeg_ne_nil _

theorem buildSubtreeL_char (K : List String) (rn : String)
    (hac : (K.map splitKey).Pairwise (fun p q => ¬ p <+: q ∧ ¬ q <+: p)) :
    uniqL (buildSubtreeL [] K rn) = true ∧
    iconsOk (buildSubtreeL [] K rn) = true ∧
    (leafKV (buildSubtreeL [] K rn)).Perm (K.map (fun k => (splitKey k, k))) ∧
    (∀ q, q ∈ nodePaths (buildSubtreeL [] K rn) ↔
      ∃ k ∈ K, q ≠ [] ∧ q <+: splitKey k) ∧
    (∀ x ∈ keysIn (buildSubtreeL [] K rn), x ∈ K) := by
  induction K using List.reverseRecOn with
  | nil =>
    simp [buildSubtreeL, uniqL, iconsOk, leafKV, nodePaths, keysIn]
  | append_singleton K k ihK =>
    have hstep : buildSubtreeL [] (K ++ [k]) rn
        = addNodeL (buildSubtreeL [] K rn) (splitKey k) k rn := by
      simp [buildSubtreeL, List.foldl_append]
    rw [List.map_append, List.pairwise_append] at hac
    obtain ⟨hacK, _, hcross⟩ := hac
    obtain ⟨ihu, ihico, ihperm, ihpaths, ihkeys⟩ := ihK hacK
    have hcross' : ∀ p ∈ K.map splitKey,
        ¬ p <+: splitKey k ∧ ¬ splitKey k <+: p := by
      intro p hp
      exact hcross p hp (splitKey k) (by simp)
    have hnot : splitKey k ∉ nodePaths (buildSubtreeL [] K rn) := by
      intro hmem
      obtain ⟨k', hk', _, hpfx⟩ := (ihpaths _).1 hmem
      exact (hcross' (splitKey k') (List.mem_map_of_mem _ hk')).2 hpfx
    have hleaf : ∀ q ∈ (leafKV (buildSubtreeL [] K rn)).map Prod.fst,
        ¬ q <+: splitKey k := by
      intro q hq
      have hq' : q ∈ (K.map (fun k => (splitKey k, k))).map Prod.fst :=
        (ihperm.map Prod.fst).mem_iff.1 hq
      simp only [List.map_map, Function.comp] at hq'
      obtain ⟨k', hk', rfl⟩ := List.mem_map.1 hq'
      exact (hcross' (splitKey k') (List.mem_map_of_mem _ hk')).1
    obtain ⟨hu', hico', hperm', hpaths', hkeys'⟩ :=
      addNodeL_insert (splitKey k) (buildSubtreeL [] K rn) k rn
        ihu ihico (splitKey_ne_nil k) hnot hleaf
    rw [hstep]
    refine ⟨hu', hico', ?_, ?_, ?_⟩
    · refine hperm'.trans ?_
      rw [List.map_append]
      refine (List.Perm.cons _ ihperm).trans ?_
      exact (List.perm_append_singleton _ _).symm
    · intro q
      rw [hpaths' q, ihpaths q]
      constructor
      · rintro (⟨k', hk', hne, hpfx⟩ | ⟨hne, hpfx⟩)
        · exact ⟨k', by simp [hk'], hne, hpfx⟩
        · exact ⟨k, by simp, hne, hpfx⟩
      · rintro ⟨k', hk', hne, hpfx⟩
        rcases List.mem_append.1 hk' with hk1 | hk2
        · exact Or.inl ⟨k', hk1, hne, hpfx⟩
        · rw [List.mem_singleton] at hk2
          subst hk2
          exact Or.inr ⟨hne, hpfx⟩
    · intro x hx
      rcases hkeys' x hx with hold | rfl
      · exact List.mem_append.2 (Or.inl (ihkeys x hold))
      · simp

/-! ## Counting leaves and directories -/

theorem countLeaves_eq_length_leafKV :
    ∀ cs : List GNode, countLeaves cs = (leafKV cs).length := by
  refine forest_ind _ ?_ ?_ ?_
  · simp [countLeaves, leafKV]
  · intro n k i r b cs ih
    simp [countLeaves, leafKV, ih]
    omega
  · intro n k i r b c cc cs ihin ihtail
    simp [countLeaves, leafKV, ihin, ihtail]

theorem countLeaves_add_countDirs :
    ∀ cs : List GNode, countLeaves cs + countDirs cs = (nodePaths cs).length := by
  refine forest_ind _ ?_ ?_ ?_
  · simp [countLeaves, countDirs, nodePaths]
  · intro n k i r b cs ih
    simp only [countLeaves, countDirs, nodePaths]
    simp only [List.map_nil] at *
    simp at *
    omega
  · intro n k i r b c cc cs ihin ihtail
    simp only [countLeaves, countDirs, nodePaths]
    simp at *
    omega

theorem mem_nodePaths_head (cs : List GNode) (q : List String)
    (h : q ∈ nodePaths cs) : ∃ c ∈ cs, ∃ q', q = c.name :: q' := by
  obtain ⟨c, hc, hd⟩ := (mem_nodePaths_iff cs q).1 h
  rcases hd with rfl | ⟨q', rfl, _⟩
  · exact ⟨c, hc, [], rfl⟩
  · exact ⟨c, hc, q', rfl⟩

theorem mem_nodePaths_ne_nil (cs : List GNode) (q : List String)
    (h : q ∈ nodePaths cs) : q ≠ [] := by
  obtain ⟨c, _, q', rfl⟩ := mem_nodePaths_head cs q h
  simp

theorem nodePaths_nodup :
    ∀ cs : List GNode, uniqL cs = true → (nodePaths cs).Nodup := by
  refine forest_ind _ ?_ ?_ ?_
  · intro _
    simp [nodePaths]
  all_goals
    intro n k i r b
  · intro cs ih hu
    obtain ⟨hn, _, hut⟩ := (uniqL_cons_iff _ _).1 hu
    rw [nodePaths_cons]
    simp only [children_mk, nodePaths, List.map_nil, name_mk]
    rw [List.nodup_append]
    refine ⟨by simp, ih hut, ?_⟩
    rw [List.disjoint_left]
    intro q hq hq'
    rw [List.mem_singleton] at hq
    subst hq
    obtain ⟨c', hc', q', hq'eq⟩ := mem_nodePaths_head cs _ hq'
    rw [List.cons.injEq] at hq'eq
    apply hn
    rw [namesOf] at hn ⊢
    exact List.mem_map.2 ⟨c', hc', hq'eq.1.symm⟩
  · intro c cc cs ihin ihtail hu
    obtain ⟨hn, hucc, hut⟩ := (uniqL_cons_iff _ _).1 hu
    rw [nodePaths_cons]
    simp only [children_mk, name_mk]
    rw [List.nodup_append, List.nodup_cons]
    refine ⟨⟨?_, List.Nodup.map List.cons_injective (ihin (by simpa using hucc))⟩,
      ihtail hut, ?_⟩
    · intro hmem
      obtain ⟨q', hq', heq⟩ := List.mem_map.1 hmem
      have hne := mem_nodePaths_ne_nil _ _ hq'
      rw [List.cons.injEq] at heq
      exact hne heq.2
    · rw [List.disjoint_left]
      intro q hq hq'
      obtain ⟨c', hc', q'', hq''⟩ := mem_nodePaths_head cs q hq'
      have hhead : ∃ qq, q = n :: qq := by
        rcases List.mem_cons.1 hq with rfl | hq2
        · exact ⟨[], rfl⟩
        · obtain ⟨a, _, rfl⟩ := List.mem_map.1 hq2
          exact ⟨a, rfl⟩
      obtain ⟨qq, rfl⟩ := hhead
      rw [List.cons.injEq] at hq''
      apply hn
      rw [namesOf]
      exact List.mem_map.2 ⟨c', hc', hq''.1.symm⟩

/-! ## The claimed counting quantities -/

/-- All nonempty prefixes of a segment path. -/
def allPfxs (p : List String) : List (List String) :=
  p.inits.filter (fun q => !q.isEmpty)

/-- All nonempty *strict* prefixes of a segment path — the non-terminal
ones. -/
def strictPfxs (p : List String) : List (List String) :=
  p.dropLast.inits.filter (fun q => !q.isEmpty)

/-- The number of distinct non-terminal path prefixes across a key
list. -/
def distinctStrictPfxCount (K : List String) : Nat :=
  (((K.map splitKey).map strictPfxs).flatten.dedup).length

theorem mem_allPfxs (p q : List String) : q ∈ allPfxs p ↔ q ≠ [] ∧ q <+: p := by
  rw [allPfxs, List.mem_filter, List.mem_inits]
  simp [and_comm]

theorem mem_strictPfxs (p q : List String) :
    q ∈ strictPfxs p ↔ q ≠ [] ∧ q <+: p ∧ q ≠ p := by
  rw [strictPfxs, List.mem_filter, List.mem_inits]
  constructor
  · rintro ⟨hpfx, hne⟩
    simp only [Bool.not_eq_true', ← Bool.not_eq_true, List.isEmpty_iff] at hne
    refine ⟨by simpa using hne, hpfx.trans (List.dropLast_prefix p), ?_⟩
    intro rfl_eq
    subst rfl_eq
    have h1 := hpfx.length_le
    rw [List.length_dropLast] at h1
    have h2 : q ≠ [] := by simpa using hne
    have h3 : 0 < q.length := List.length_pos.2 h2
    omega
  · rintro ⟨hne, hpfx, hnep⟩
    have hlt : q.length < p.length :=
      lt_of_le_of_ne hpfx.length_le (fun h => hnep (hpfx.eq_of_length h))
    refine ⟨List.prefix_of_prefix_length_le hpfx (List.dropLast_prefix p) ?_, ?_⟩
    · rw [List.length_dropLast]
      omega
    · simpa using hne

/-- Full characterization of the counts of the tree built from a
prefix-free listing, matching §8 of the spec as amended. -/
theorem buildSubtree_counts (node : GNode) (K : List String) (rn : String)
    (h0 : node.children = [])
    (hac : (K.map splitKey).Pairwise (fun p q => ¬ p <+: q ∧ ¬ q <+: p)) :
    countLeaves (buildSubtree node K rn).children = K.length ∧
    ((leafKV (buildSubtree node K rn).children).map Prod.snd).Perm K ∧
    countDirs (buildSubtree node K rn).children = distinctStrictPfxCount K := by
  rw [buildSubtree_eq, children_withChildren, h0]
  obtain ⟨hu, hico, hperm, hpaths, hkeys⟩ := buildSubtreeL_char K rn hac
  have hsnd : ((leafKV (buildSubtreeL [] K rn)).map Prod.snd).Perm K := by
    have hm := hperm.map Prod.snd
    rw [List.map_map] at hm
    have hmid : List.map (Prod.snd ∘ fun k => (splitKey k, k)) K = K := by
      rw [show (Prod.snd ∘ fun k : String => (splitKey k, k)) = id from rfl]
      exact List.map_id K
    rw [hmid] at hm
    exact hm
  have hleaves : countLeaves (buildSubtreeL [] K rn) = K.length := by
    rw [countLeaves_eq_length_leafKV, hperm.length_eq, List.length_map]
  refine ⟨hleaves, hsnd, ?_⟩
  have hsymm : Symmetric (fun p q : List String => ¬ p <+: q ∧ ¬ q <+: p) :=
    fun _ _ h => ⟨h.2, h.1⟩
  have hPnodup : (K.map splitKey).Nodup := by
    refine hac.imp ?_
    intro a b hab heq
    exact hab.1 (by rw [heq])
  have hAllNodup : ((K.map splitKey).map allPfxs).flatten.dedup.Nodup :=
    List.nodup_dedup _
  have hNodesNodup : (nodePaths (buildSubtreeL [] K rn)).Nodup :=
    nodePaths_nodup _ hu
  have hmemAll : ∀ q, q ∈ ((K.map splitKey).map allPfxs).flatten.dedup ↔
      ∃ k ∈ K, q ≠ [] ∧ q <+: splitKey k := by
    intro q
    rw [List.mem_dedup, List.mem_flatten]
    constructor
    · rintro ⟨l, hl, hq⟩
      obtain ⟨p, hp, rfl⟩ := List.mem_map.1 hl
      obtain ⟨k, hk, rfl⟩ := List.mem_map.1 hp
      obtain ⟨hne, hpfx⟩ := (mem_allPfxs _ _).1 hq
      exact ⟨k, hk, hne, hpfx⟩
    · rintro ⟨k, hk, hne, hpfx⟩
      exact ⟨allPfxs (splitKey k),
        List.mem_map_of_mem _ (List.mem_map_of_mem _ hk),
        (mem_allPfxs _ _).2 ⟨hne, hpfx⟩⟩
  have hNodesLen : (nodePaths (buildSubtreeL [] K rn)).length
      = ((K.map splitKey).map allPfxs).flatten.dedup.length :=
    ((List.perm_ext_iff_of_nodup hNodesNodup hAllNodup).2
      (fun q => by rw [hpaths q, hmemAll q])).length_eq
  have hsplitperm : ((K.map splitKey).map allPfxs).flatten.dedup.Perm
      (((K.map splitKey).map strictPfxs).flatten.dedup ++ K.map splitKey) := by
    refine (List.perm_ext_iff_of_nodup hAllNodup ?_).2 ?_
    · rw [List.nodup_append]
      refine ⟨List.nodup_dedup _, hPnodup, ?_⟩
      rw [List.disjoint_left]
      intro q hq hq'
      rw [List.mem_dedup, List.mem_flatten] at hq
      obtain ⟨l, hl, hql⟩ := hq
      obtain ⟨p1, hp1, rfl⟩ := List.mem_map.1 hl
      obtain ⟨hne, hpfx, hnep⟩ := (mem_strictPfxs _ _).1 hql
      by_cases heq : q = p1
      · exact hnep heq
      · exact (hac.forall hsymm hq' hp1 heq).1 hpfx
    · intro q
      rw [List.mem_dedup, List.mem_flatten, List.mem_append, List.mem_dedup,
        List.mem_flatten]
      constructor
      · rintro ⟨l, hl, hq⟩
        obtain ⟨p, hp, rfl⟩ := List.mem_map.1 hl
        obtain ⟨hne, hpfx⟩ := (mem_allPfxs _ _).1 hq
        by_cases heq : q = p
        · exact Or.inr (heq ▸ hp)
        · exact Or.inl ⟨strictPfxs p, List.mem_map_of_mem _ hp,
            (mem_strictPfxs _ _).2 ⟨hne, hpfx, heq⟩⟩
      · rintro (⟨l, hl, hq⟩ | hq)
        · obtain ⟨p, hp, rfl⟩ := List.mem_map.1 hl
          obtain ⟨hne, hpfx, _⟩ := (mem_strictPfxs _ _).1 hq
          exact ⟨allPfxs p, List.mem_map_of_mem _ hp,
            (mem_allPfxs _ _).2 ⟨hne, hpfx⟩⟩
        · obtain ⟨k, hk, rfl⟩ := List.mem_map.1 hq
          exact ⟨allPfxs (splitKey k),
            List.mem_map_of_mem _ (List.mem_map_of_mem _ hk),
            (mem_allPfxs _ _).2 ⟨splitKey_ne_nil k, List.prefix_refl _⟩⟩
  have hcount := countLeaves_add_countDirs (buildSubtreeL [] K rn)
  rw [hleaves, hNodesLen, hsplitperm.length_eq, List.length_append,
    List.length_map] at hcount
  rw [distinctStrictPfxCount]
  omega

/-! ## Idempotence of insertion -/

theorem uniqL_addNodeL (p : List String) : ∀ (cs : List GNode) (key rn : String),
    uniqL cs = true → uniqL (addNodeL cs p key rn) = true := by
  induction p with
  | nil => intro cs key rn hu; exact hu
  | cons s rest ih =>
    intro cs key rn hu
    cases hli : lastIdx cs s with
    | none =>
      rw [addNodeL_none _ _ _ _ _ hli]
      refine (uniqL_append_iff _ _).2 ⟨hu, uniqL_chain _ _ _ _, ?_⟩
      intro n hn
      obtain ⟨c, hc, rfl⟩ := List.mem_map.1 hn
      simp only [namesOf, List.map_cons, List.map_nil, List.mem_singleton,
        name_chainNode]
      exact (lastIdx_eq_none_iff cs s).1 hli c hc
    | some i =>
      obtain ⟨l1, c, l2, rfl, hlen, hcname, hl2, hstep⟩ :=
        addNodeL_some _ s i hli rest key rn
      rw [hstep]
      obtain ⟨hu1, hu2, hdisj⟩ := (uniqL_append_iff l1 (c :: l2)).1 hu
      obtain ⟨hcn2, hucc, hul2⟩ := (uniqL_cons_iff c l2).1 hu2
      rw [addNode_eq_withChildren]
      refine (uniqL_append_iff _ _).2
        ⟨hu1, (uniqL_cons_iff _ _).2 ⟨?_, ?_, hul2⟩, ?_⟩
      · rw [name_withChildren]; exact hcn2
      · rw [children_withChildren]; exact ih c.children key rn hucc
      · intro n hn
        have h := hdisj n hn
        rw [namesOf_cons] at h ⊢
        rw [name_withChildren]
        exact h

theorem mem_nodePaths_addNodeL (p : List String) :
    ∀ (cs : List GNode) (key rn : String) (q : List String),
    q ∈ nodePaths cs → q ∈ nodePaths (addNodeL cs p key rn) := by
  induction p with
  | nil => intro cs key rn q hq; exact hq
  | cons s rest ih =>
    intro cs key rn q hq
    cases hli : lastIdx cs s with
    | none =>
      rw [addNodeL_none _ _ _ _ _ hli, nodePaths_append]
      exact List.mem_append.2 (Or.inl hq)
    | some i =>
      obtain ⟨l1, c, l2, rfl, hlen, hcname, hl2, hstep⟩ :=
        addNodeL_some _ s i hli rest key rn
      rw [hstep, addNode_eq_withChildren]
      obtain ⟨c', hc', hd⟩ := (mem_nodePaths_iff _ _).1 hq
      rcases List.mem_append.1 hc' with hcl1 | hc2
      · exact (mem_nodePaths_iff _ _).2 ⟨c', List.mem_append.2 (Or.inl hcl1), hd⟩
      · rcases List.mem_cons.1 hc2 with rfl | hcl2
        · rcases hd with rfl | ⟨q', rfl, hq'⟩
          · refine (mem_nodePaths_iff _ _).2
              ⟨c'.withChildren (addNodeL c'.children rest key rn),
               List.mem_append.2 (Or.inr (List.mem_cons_self _ _)), ?_⟩
            rw [name_withChildren]
            exact Or.inl rfl
          · refine (mem_nodePaths_iff _ _).2
              ⟨c'.withChildren (addNodeL c'.children rest key rn),
               List.mem_append.2 (Or.inr (List.mem_cons_self _ _)), ?_⟩
            rw [name_withChildren, children_withChildren]
            exact Or.inr ⟨q', rfl, ih c'.children key rn q' hq'⟩
        · exact (mem_nodePaths_iff _ _).2
            ⟨c', List.mem_append.2 (Or.inr (List.mem_cons_of_mem _ hcl2)), hd⟩

theorem self_mem_nodePaths_addNodeL (p : List String) (hp : p ≠ []) :
    ∀ (cs : List GNode) (key rn : String),
    p ∈ nodePaths (addNodeL cs p key rn) := by
  induction p with
  | nil => exact absurd rfl hp
  | cons s rest ih =>
    intro cs key rn
    cases hli : lastIdx cs s with
    | none =>
      rw [addNodeL_none _ _ _ _ _ hli, nodePaths_append]
      refine List.mem_append.2 (Or.inr ?_)
      exact (mem_nodePaths_chain _ _ _ _ _).2 ⟨by simp, List.prefix_refl _⟩
    | some i =>
      obtain ⟨l1, c, l2, rfl, hlen, hcname, hl2, hstep⟩ :=
        addNodeL_some _ s i hli rest key rn
      rw [hstep, addNode_eq_withChildren]
      cases hrest : rest with
      | nil =>
        subst hrest
        refine (mem_nodePaths_iff _ _).2
          ⟨c.withChildren (addNodeL c.children [] key rn),
           List.mem_append.2 (Or.inr (List.mem_cons_self _ _)), ?_⟩
        rw [name_withChildren, hcname]
        exact Or.inl rfl
      | cons t rest' =>
        subst hrest
        refine (mem_nodePaths_iff _ _).2
          ⟨c.withChildren (addNodeL c.children (t :: rest') key rn),
           List.mem_append.2 (Or.inr (List.mem_cons_self _ _)), ?_⟩
        rw [name_withChildren, children_withChildren, hcname]
        exact Or.inr ⟨t :: rest', rfl, ih (by simp) c.children key rn⟩

theorem eq_of_mem_uniq_same_name :
    ∀ (cs : List GNode), uniqL cs = true →
    ∀ c₁ c₂ : GNode, c₁ ∈ cs → c₂ ∈ cs → c₁.name = c₂.name → c₁ = c₂ := by
  intro cs
  induction cs with
  | nil => intro _ c₁ c₂ h; simp at h
  | cons c t ih =>
    intro hu c₁ c₂ h1 h2 hname
    obtain ⟨hn, _, hut⟩ := (uniqL_cons_iff c t).1 hu
    rcases List.mem_cons.1 h1 with rfl | h1'
    · rcases List.mem_cons.1 h2 with rfl | h2'
      · rfl
      · exfalso
        apply hn
        rw [namesOf, hname]
        exact List.mem_map.2 ⟨c₂, h2', rfl⟩
    · rcases List.mem_cons.1 h2 with rfl | h2'
      · exfalso
        apply hn
        rw [namesOf, ← hname]
        exact List.mem_map.2 ⟨c₁, h1', rfl⟩
      · exact ih hut c₁ c₂ h1' h2' hname

theorem addNodeL_id_of_mem (p : List String) :
    ∀ (cs : List GNode) (key rn : String), uniqL cs = true →
    p ∈ nodePaths cs → addNodeL cs p key rn = cs := by
  induction p with
  | nil => intro cs key rn _ _; rfl
  | cons s rest ih =>
    intro cs key rn hu hmem
    obtain ⟨c, hc, hd⟩ := (mem_nodePaths_iff _ _).1 hmem
    have hcname : c.name = s := by
      rcases hd with h | ⟨q', hq', _⟩
      · rw [List.cons.injEq] at h
        exact h.1.symm
      · rw [List.cons.injEq] at hq'
        exact hq'.1.symm
    cases hli : lastIdx cs s with
    | none => exact absurd hcname ((lastIdx_eq_none_iff _ _).1 hli c hc)
    | some i =>
      obtain ⟨l1, c₂, l2, hcs, hlen, hc₂name, hl2, hstep⟩ :=
        addNodeL_some _ s i hli rest key rn
      have hc₂mem : c₂ ∈ cs := by rw [hcs]; simp
      have hceq : c = c₂ :=
        eq_of_mem_uniq_same_name cs hu c c₂ hc hc₂mem (by rw [hcname, hc₂name])
      subst hceq
      rw [hstep]
      obtain ⟨_, hu2, _⟩ := (uniqL_append_iff l1 (c :: l2)).1 (by rw [← hcs]; exact hu)
      obtain ⟨_, hucc, _⟩ := (uniqL_cons_iff c l2).1 hu2
      rcases hd with h | ⟨q', hq', hq'mem⟩
      · rw [List.cons.injEq] at h
        obtain ⟨_, hrest⟩ := h
        subst hrest
        rw [show c.addNode [] key rn = c from rfl, ← hcs]
      · rw [List.cons.injEq] at hq'
        obtain ⟨_, hrest⟩ := hq'
        subst hrest
        rw [addNode_eq_withChildren, ih c.children key rn hucc hq'mem,
          withChildren_children, ← hcs]

theorem nodePaths_closed_pfx (q : List String) :
    ∀ (cs : List GNode) (q₁ : List String), q₁ ∈ nodePaths cs → q ≠ [] →
    q <+: q₁ → q ∈ nodePaths cs := by
  induction q with
  | nil => intro _ _ _ h; exact absurd rfl h
  | cons s qt ih =>
    intro cs q₁ hq₁ _ hpfx
    obtain ⟨c, hc, hd⟩ := (mem_nodePaths_iff _ _).1 hq₁
    rcases hd with rfl | ⟨q₁', rfl, hq₁'⟩
    · rw [List.cons_prefix_cons] at hpfx
      obtain ⟨rfl, hqt⟩ := hpfx
      rw [List.eq_nil_of_prefix_nil hqt]
      exact (mem_nodePaths_iff _ _).2 ⟨c, hc, Or.inl rfl⟩
    · rw [List.cons_prefix_cons] at hpfx
      obtain ⟨rfl, hqt⟩ := hpfx
      cases qt with
      | nil => exact (mem_nodePaths_iff _ _).2 ⟨c, hc, Or.inl rfl⟩
      | cons a at2 =>
        exact (mem_nodePaths_iff _ _).2 ⟨c, hc, Or.inr ⟨a :: at2, rfl,
          ih c.children q₁' hq₁' (by simp) hqt⟩⟩

theorem uniqL_buildSubtreeL (K : List String) (rn : String) :
    ∀ cs, uniqL cs = true → uniqL (buildSubtreeL cs K rn) = true := by
  induction K with
  | nil => intro cs hu; exact hu
  | cons k K' ih =>
    intro cs hu
    exact ih _ (uniqL_addNodeL (splitKey k) cs k rn hu)

theorem mem_nodePaths_buildSubtreeL (K : List String) (rn : String) :
    ∀ cs q, q ∈ nodePaths cs → q ∈ nodePaths (buildSubtreeL cs K rn) := by
  induction K with
  | nil => intro cs q h; exact h
  | cons k K' ih =>
    intro cs q h
    exact ih _ q (mem_nodePaths_addNodeL (splitKey k) cs k rn q h)

theorem key_mem_nodePaths_buildSubtreeL (K : List String) (rn : String) :
    ∀ cs k, k ∈ K → splitKey k ∈ nodePaths (buildSubtreeL cs K rn) := by
  induction K with
  | nil => intro cs k h; simp at h
  | cons k0 K' ih =>
    intro cs k hk
    rcases List.mem_cons.1 hk with rfl | hk'
    · exact mem_nodePaths_buildSubtreeL K' rn _ _
        (self_mem_nodePaths_addNodeL (splitKey k) (splitKey_ne_nil k) cs k rn)
    · exact ih _ k hk'

theorem buildSubtreeL_id_of_mem (K : List String) (rn : String) :
    ∀ cs, uniqL cs = true → (∀ k ∈ K, splitKey k ∈ nodePaths cs) →
    buildSubtreeL cs K rn = cs := by
  induction K with
  | nil => intro cs _ _; rfl
  | cons k K' ih =>
    intro cs hu hmem
    have h1 : addNodeL cs (splitKey k) k rn = cs :=
      addNodeL_id_of_mem _ cs k rn hu (hmem k (List.mem_cons_self _ _))
    show buildSubtreeL (addNodeL cs (splitKey k) k rn) K' rn = cs
    rw [h1]
    exact ih cs hu (fun k' hk' => hmem k' (List.mem_cons_of_mem _ hk'))

/-- C1 (amended): for a target node with no children and an ordered key
list whose segment paths are pairwise distinct and prefix-incomparable,
`buildSubtree` yields exactly `|K|` Leaf (childless) nodes, the multiset
of the Leaves' `fullKey` values is exactly K, and the number of Directory
(childful) nodes equals the number of distinct non-terminal path prefixes
across K.  (As stated over *all* distinct key lists the claim is false —
see the counterexample — because a key whose path extends another key's
path absorbs that key's leaf.) -/
theorem claim_C1 (node : GNode) (K : List String) (rn : String)
    (h0 : node.children = [])
    (hac : (K.map splitKey).Pairwise (fun p q => ¬ p <+: q ∧ ¬ q <+: p)) :
    countLeaves (buildSubtree node K rn).children = K.length ∧
    ((leafKV (buildSubtree node K rn).children).map Prod.snd).Perm K ∧
    countDirs (buildSubtree node K rn).children = distinctStrictPfxCount K :=
  buildSubtree_counts node K rn h0 hac

/-- C6: insertion into the tree is idempotent: `resetSubtree` followed by
`buildSubtree K` twice in a row yields the same tree as doing it once
(here proved as on-the-nose equality, which implies isomorphism), and
re-inserting the same key list into the tree it already built produces no
change at all (no duplicate nodes). -/
theorem claim_C6 (node : GNode) (K : List String) (rn : String) :
    buildSubtree (resetSubtree (buildSubtree (resetSubtree node) K rn)) K rn
      = buildSubtree (resetSubtree node) K rn ∧
    (node.children = [] →
      buildSubtree (buildSubtree node K rn) K rn = buildSubtree node K rn) := by
  constructor
  · have hr : resetSubtree (buildSubtree (resetSubtree node) K rn)
        = resetSubtree node := by
      rw [buildSubtree_eq]
      simp [resetSubtree]
    rw [hr]
  · intro h0
    rw [buildSubtree_eq node K rn, h0]
    rw [buildSubtree_eq, children_withChildren, withChildren_withChildren]
    rw [buildSubtreeL_id_of_mem K rn _
      (uniqL_buildSubtreeL K rn [] (by simp [uniqL]))
      (fun k hk => key_mem_nodePaths_buildSubtreeL K rn [] k hk)]

/-- C10: inserting a key whose segment path is a proper prefix of an
already-inserted key's segment path leaves the tree completely unchanged:
no node is created and no existing node is updated — the shorter key is
silently dropped. -/
theorem claim_C10 (node : GNode) (K : List String) (rn k' k : String)
    (h0 : node.children = [])
    (hk : k ∈ K)
    (hpfx : splitKey k' <+: splitKey k)
    (_hne : splitKey k' ≠ splitKey k) :
    (buildSubtree node K rn).addNode (splitKey k') k' rn
      = buildSubtree node K rn := by
  rw [buildSubtree_eq, h0, addNode_eq_withChildren, children_withChildren,
    withChildren_withChildren]
  have hu : uniqL (buildSubtreeL [] K rn) = true :=
    uniqL_buildSubtreeL K rn [] (by simp [uniqL])
  have hkmem : splitKey k ∈ nodePaths (buildSubtreeL [] K rn) :=
    key_mem_nodePaths_buildSubtreeL K rn [] k hk
  have hq : splitKey k' ∈ nodePaths (buildSubtreeL [] K rn) :=
    nodePaths_closed_pfx (splitKey k') _ (splitKey k) hkmem
      (splitKey_ne_nil k') hpfx
  rw [addNodeL_id_of_mem (splitKey k') _ k' rn hu hq]

/-! ## Session-level lemmas -/

theorem lookupConfig_setClient_self (cfgs : List (String × EtcdConfig))
    (n : String) (v : Option Store) :
    lookupConfig (setClient cfgs n v) n
      = (lookupConfig cfgs n).map (fun ec => { ec with Client := v }) := by
  induction cfgs with
  | nil => rfl
  | cons p rest ih =>
    obtain ⟨m, ec⟩ := p
    by_cases h : m = n
    · subst h
      simp [setClient, lookupConfig]
    · simp [setClient, lookupConfig, h, ih]

theorem search_eq_of_client (searchKey : String)
    (cfgs : List (String × EtcdConfig)) (node : GNode) (ec : EtcdConfig)
    (client : Store)
    (hec : lookupConfig cfgs node.name = some ec)
    (hcl : ec.Client = some client) :
    search true searchKey cfgs node
      = ((buildSubtree (node.withChildren []) (client.getKeysOnly searchKey)
            node.name).withIcon
          (if searchKey = "" then "img/connected.ico" else "img/search.ico"),
        false) := by
  simp [search, hec, hcl]

/-- A fixed sample configuration without a stored client handle. -/
def cfgA : EtcdConfig := ⟨"c1", "http://h:2379", "h", 2379, "", "", none⟩

/-- A fixed sample configuration holding a live client handle. -/
def cfgB : EtcdConfig := ⟨"c1", "http://h:2379", "h", 2379, "", "", some ⟨["/x"]⟩⟩

/-- C2 (amended): a `connect` attempt reaches Connected only when the
probe and the initial listing both succeed, and every failure leaves the
node (hence its subtree) exactly as it was; however the claim's clean-up
guarantee does not hold in the code: no branch of `connect` ever closes
the constructed client handle (`closed` is always `false`, a leak on
probe failure), and a failure of the initial query strikes *after*
`ec.Client` has been assigned, so the stored handle is left set to the
new client rather than nil. -/
theorem claim_C2 (env : ConnEnv) (cfgs : List (String × EtcdConfig))
    (node : GNode)
    (hsome : (lookupConfig cfgs node.name).isSome = true) :
    (env.newOk = false →
      connect env cfgs node = ⟨cfgs, node, false, false, true⟩) ∧
    (env.newOk = true → env.probeOk = false →
      connect env cfgs node = ⟨cfgs, node, true, false, true⟩) ∧
    (env.newOk = true → env.probeOk = true → env.queryOk = false →
      connect env cfgs node
        = ⟨setClient cfgs node.name (some env.store), node, true, false, true⟩) ∧
    (connect env cfgs node).closed = false ∧
    (node.connected = false →
      ((connect env cfgs node).node.connected = true ↔
        env.newOk = true ∧ env.probeOk = true ∧ env.queryOk = true)) := by
  obtain ⟨ec, hec⟩ := Option.isSome_iff_exists.1 hsome
  obtain ⟨store, newOk, probeOk, queryOk⟩ := env
  refine ⟨?_, ?_, ?_, ?_, ?_⟩
  · rintro rfl
    simp [connect, hec]
  · rintro rfl rfl
    simp [connect, hec]
  · rintro rfl rfl rfl
    simp [connect, hec]
  · cases newOk <;> cases probeOk <;> cases queryOk <;> simp [connect, hec]
  · intro hc
    cases newOk <;> cases probeOk <;> cases queryOk <;> simp [connect, hec, hc]

/-- Counterexample to C2 as stated: with the config present and the
store reachable, a probe failure leaves the freshly constructed client
unreleased (`created` with no `closed`), and a failure of the initial
prefix query leaves the session's stored client handle set to the new
client — not nil. -/
theorem claim_C2_counterexample :
    (lookupConfig (connect ⟨⟨["/a"]⟩, true, true, false⟩ [("c1", cfgA)]
        (connRootNode "c1")).configs "c1").map EtcdConfig.Client
      = some (some ⟨["/a"]⟩) ∧
    (connect ⟨⟨["/a"]⟩, true, false, true⟩ [("c1", cfgA)]
        (connRootNode "c1")).created = true ∧
    (connect ⟨⟨["/a"]⟩, true, false, true⟩ [("c1", cfgA)]
        (connRootNode "c1")).closed = false := by
  refine ⟨by decide, rfl, rfl⟩

/-- Witness for C2 at a concrete configured root. -/
theorem claim_C2_witness :
    (connect ⟨⟨["/a"]⟩, true, true, true⟩ [("c1", cfgA)]
      (connRootNode "c1")).closed = false :=
  (claim_C2 ⟨⟨["/a"]⟩, true, true, true⟩ [("c1", cfgA)] (connRootNode "c1")
    (by decide)).2.2.2.1

/-- C3 (amended): `connect` never discards existing children — it has no
reset step — so only when the root's subtree is empty beforehand (the
normal situation, since connection roots are created childless and
`disconnect` clears them) does a successful connect produce the same
subtree as the spec's reset-then-build: the tree built from the fresh
"/"-listing alone. -/
theorem claim_C3 (env : ConnEnv) (cfgs : List (String × EtcdConfig))
    (node : GNode)
    (hsome : (lookupConfig cfgs node.name).isSome = true)
    (henv : env.newOk = true ∧ env.probeOk = true ∧ env.queryOk = true)
    (h0 : node.children = []) :
    (connect env cfgs node).node.children
      = (buildSubtree (resetSubtree node) (env.store.getKeysOnly "/")
          node.name).children := by
  obtain ⟨ec, hec⟩ := Option.isSome_iff_exists.1 hsome
  obtain ⟨h1, h2, h3⟩ := henv
  simp [connect, hec, h1, h2, h3, resetSubtree, buildSubtree_eq, h0]

/-- Counterexample to C3 as stated: a successful `connect` on a node that
already has a child `zzz` keeps that stale child — the resulting subtree
is not rebuilt from the fresh listing alone. -/
theorem claim_C3_counterexample :
    "zzz" ∈ namesOf (connect ⟨⟨["/a"]⟩, true, true, true⟩ [("c1", cfgA)]
      ((connRootNode "c1").withChildren
        [newNode "zzz" "" "img/dir.ico" ""])).node.children := by
  decide

/-- Witness for C3 at a concrete configured root with an empty subtree. -/
theorem claim_C3_witness :
    (connect ⟨⟨["/a"]⟩, true, true, true⟩ [("c1", cfgA)]
        (connRootNode "c1")).node.children
      = (buildSubtree (resetSubtree (connRootNode "c1"))
          ((⟨["/a"]⟩ : Store).getKeysOnly "/") (connRootNode "c1").name).children :=
  claim_C3 ⟨⟨["/a"]⟩, true, true, true⟩ [("c1", cfgA)] (connRootNode "c1")
    (by decide) ⟨rfl, rfl, rfl⟩ rfl

/-- C4 (code bug): `disconnect` always clears the children and the
`connected` flag, and a second call changes nothing further; but it looks
the config up under `node.rootName` — which is the empty string for
every connection-root node created by `newNodeTreeModel` — while
`connect` stores the client under `node.name`, so the stored client
handle is never closed nor cleared.  Evaluated here at a connected root
named `c1`. -/
theorem claim_C4 :
    (disconnect [("c1", cfgB)]
        (GNode.mk "c1" "" "img/connected.ico" "" true
          [GNode.mk "x" "/x" "img/file.ico" "c1" false []])).1
      = [("c1", cfgB)] ∧
    (lookupConfig (disconnect [("c1", cfgB)]
        (GNode.mk "c1" "" "img/connected.ico" "" true
          [GNode.mk "x" "/x" "img/file.ico" "c1" false []])).1 "c1").map
        EtcdConfig.Client
      = some (some ⟨["/x"]⟩) ∧
    (disconnect [("c1", cfgB)]
        (GNode.mk "c1" "" "img/connected.ico" "" true
          [GNode.mk "x" "/x" "img/file.ico" "c1" false []])).2.children = [] ∧
    (disconnect [("c1", cfgB)]
        (GNode.mk "c1" "" "img/connected.ico" "" true
          [GNode.mk "x" "/x" "img/file.ico" "c1" false []])).2.connected
      = false ∧
    disconnect
        (disconnect [("c1", cfgB)]
          (GNode.mk "c1" "" "img/connected.ico" "" true
            [GNode.mk "x" "/x" "img/file.ico" "c1" false []])).1
        (disconnect [("c1", cfgB)]
          (GNode.mk "c1" "" "img/connected.ico" "" true
            [GNode.mk "x" "/x" "img/file.ico" "c1" false []])).2
      = disconnect [("c1", cfgB)]
          (GNode.mk "c1" "" "img/connected.ico" "" true
            [GNode.mk "x" "/x" "img/file.ico" "c1" false []]) := by
  refine ⟨by decide, by decide, rfl, rfl, rfl⟩

/-- C7 (amended): on a freshly connected session, `search(root, "")`
queries with the empty prefix, which matches the *whole* keyspace — a
superset of the "/"-scoped listing `connect` uses.  When every store key
starts with "/" (the conventional layout), the two listings coincide and
the rebuilt tree is identical to the tree the original `connect`
produced.  (Without that proviso the claim fails — see the
counterexample with a key that does not start with "/".) -/
theorem claim_C7 (env : ConnEnv) (cfgs : List (String × EtcdConfig))
    (node : GNode)
    (hsome : (lookupConfig cfgs node.name).isSome = true)
    (henv : env.newOk = true ∧ env.probeOk = true ∧ env.queryOk = true)
    (h0 : node.children = [])
    (hall : ∀ k ∈ env.store.keys, keyHasPfx "/" k = true) :
    (search true "" (connect env cfgs node).configs
        (connect env cfgs node).node).1.children
      = (connect env cfgs node).node.children := by
  obtain ⟨ec, hec⟩ := Option.isSome_iff_exists.1 hsome
  obtain ⟨h1, h2, h3⟩ := henv
  have hconn : connect env cfgs node
      = ⟨setClient cfgs node.name (some env.store),
         ((buildSubtree node (env.store.getKeysOnly "/") node.name).withIcon
            "img/connected.ico").withConnected true, true, false, false⟩ := by
    simp [connect, hec, h1, h2, h3]
  rw [hconn]
  have hname : (((buildSubtree node (env.store.getKeysOnly "/")
      node.name).withIcon "img/connected.ico").withConnected true).name
      = node.name := by
    rw [name_withConnected, name_withIcon, buildSubtree_eq, name_withChildren]
  have hlook : lookupConfig (setClient cfgs node.name (some env.store))
      ((((buildSubtree node (env.store.getKeysOnly "/") node.name).withIcon
          "img/connected.ico").withConnected true).name)
      = some { ec with Client := some env.store } := by
    rw [hname, lookupConfig_setClient_self, hec]
    rfl
  rw [search_eq_of_client "" _ _ _ env.store hlook rfl]
  have hk0 : env.store.getKeysOnly "" = env.store.keys :=
    List.filter_eq_self.2 (fun a _ => rfl)
  have hk1 : env.store.getKeysOnly "/" = env.store.keys :=
    List.filter_eq_self.2 (fun a ha => hall a ha)
  rw [children_withIcon, buildSubtree_eq, children_withChildren,
    children_withChildren, hname, hk0]
  rw [children_withConnected, children_withIcon, buildSubtree_eq,
    children_withChildren, h0, hk1]

/-- Counterexample to C7 as stated: with a store containing the key `a`
(no leading slash), `connect` lists nothing (its query is scoped to the
"/" prefix) while `search(root, "")` lists the whole keyspace: the two
trees differ. -/
theorem claim_C7_counterexample :
    namesOf (connect ⟨⟨["a"]⟩, true, true, true⟩ [("c1", cfgA)]
        (connRootNode "c1")).node.children = [] ∧
    namesOf (search true "" (connect ⟨⟨["a"]⟩, true, true, true⟩
        [("c1", cfgA)] (connRootNode "c1")).configs
      (connect ⟨⟨["a"]⟩, true, true, true⟩ [("c1", cfgA)]
        (connRootNode "c1")).node).1.children = ["a"] := by
  exact ⟨by decide, by decide⟩

/-- Witness for C7 at a concrete slash-keyed store. -/
theorem claim_C7_witness :
    (search true "" (connect ⟨⟨["/a", "/b/c"]⟩, true, true, true⟩
        [("c1", cfgA)] (connRootNode "c1")).configs
      (connect ⟨⟨["/a", "/b/c"]⟩, true, true, true⟩ [("c1", cfgA)]
        (connRootNode "c1")).node).1.children
      = (connect ⟨⟨["/a", "/b/c"]⟩, true, true, true⟩ [("c1", cfgA)]
          (connRootNode "c1")).node.children :=
  claim_C7 ⟨⟨["/a", "/b/c"]⟩, true, true, true⟩ [("c1", cfgA)]
    (connRootNode "c1") (by decide) ⟨rfl, rfl, rfl⟩ rfl (by decide)

/-- C8 (amended): when no config or no stored client handle exists for
the node, `search` is silently a no-op — the node and session are
untouched and *no* error is signaled (the guard's else-branch is an empty
TODO).  The guard tests only for a client handle, not for a Connected
session, so search proceeds whenever a handle is present — see the
counterexample. -/
theorem claim_C8 (queryOk : Bool) (searchKey : String)
    (cfgs : List (String × EtcdConfig)) (node : GNode)
    (h : (lookupConfig cfgs node.name).bind EtcdConfig.Client = none) :
    search queryOk searchKey cfgs node = (node, false) := by
  cases hec : lookupConfig cfgs node.name with
  | none => simp [search, hec]
  | some ec =>
    rw [hec, Option.some_bind] at h
    simp [search, hec, h]

/-- Counterexample to C8 as stated: a session that is not Connected
(`connected = false`) but whose config still holds a client handle — as
left behind by a query-failing connect or by the disconnect bug — is
searched without complaint: the tree is rebuilt (not a no-op) and no
error is signaled. -/
theorem claim_C8_counterexample :
    (connRootNode "c1").connected = false ∧
    namesOf (search true "" [("c1", cfgB)] (connRootNode "c1")).1.children
      = ["x"] ∧
    (search true "" [("c1", cfgB)] (connRootNode "c1")).2 = false := by
  exact ⟨rfl, by decide, rfl⟩

/-- Witness for C8 at a concrete client-less root. -/
theorem claim_C8_witness :
    search true "/q" [("c1", cfgA)] (connRootNode "c1")
      = (connRootNode "c1", false) :=
  claim_C8 true "/q" [("c1", cfgA)] (connRootNode "c1") (by decide)

/-- C9 (amended): `connect` performs no state-machine check at all: the
only rejection in the function is a missing config for the node's name
(the empty TODO branch), and with a config present it proceeds through
construction, probe, query and tree population irrespective of the
session's current state — the guard against connecting an
already-connected root lives solely in the UI handlers.  (As stated the
claim is false: see the counterexample, where connect on an
already-Connected root proceeds and extends the tree.) -/
theorem claim_C9 (env : ConnEnv) (cfgs : List (String × EtcdConfig))
    (node : GNode) :
    (lookupConfig cfgs node.name = none →
      connect env cfgs node = ⟨cfgs, node, false, false, false⟩) ∧
    ((lookupConfig cfgs node.name).isSome = true →
      env.newOk = true → env.probeOk = true → env.queryOk = true →
      (connect env cfgs node).node.connected = true) := by
  constructor
  · intro h
    simp [connect, h]
  · intro hsome h1 h2 h3
    obtain ⟨ec, hec⟩ := Option.isSome_iff_exists.1 hsome
    simp [connect, hec, h1, h2, h3]

/-- Counterexample to C9 as stated: `connect` on a root whose session is
already Connected is not rejected — it runs and extends the subtree with
the new listing. -/
theorem claim_C9_counterexample :
    (GNode.mk "c1" "" "img/connected.ico" "" true []).connected = true ∧
    namesOf (connect ⟨⟨["/b"]⟩, true, true, true⟩ [("c1", cfgA)]
      (GNode.mk "c1" "" "img/connected.ico" "" true [])).node.children
      = ["b"] := by
  exact ⟨rfl, by decide⟩

/-- Witness for C9 at a root with no registered config. -/
theorem claim_C9_witness :
    connect ⟨⟨["/a"]⟩, true, true, true⟩ [] (connRootNode "c1")
      = ⟨[], connRootNode "c1", false, false, false⟩ :=
  (claim_C9 ⟨⟨["/a"]⟩, true, true, true⟩ [] (connRootNode "c1")).1 rfl

/-- Counterexample to C1 as stated: the distinct keys `/a` and `/a/b`
build a tree with a single childless node (`b`), because inserting
`/a/b` turns the leaf for `/a` into an inner node — so the Leaf count is
1, not `|K| = 2`. -/
theorem claim_C1_counterexample :
    (["/a", "/a/b"] : List String).Nodup ∧
    (["/a", "/a/b"] : List String).length = 2 ∧
    countLeaves (buildSubtree (connRootNode "r") ["/a", "/a/b"] "r").children
      = 1 := by
  refine ⟨by decide, rfl, ?_⟩
  have h : (buildSubtree (connRootNode "r") ["/a", "/a/b"] "r").children
      = [GNode.mk "a" "/a" "img/file.ico" "r" false
          [GNode.mk "b" "/a/b" "img/file.ico" "r" false []]] := rfl
  rw [h]
  simp [countLeaves]

/-- Witness for C1 at the spec's worked example
`["/a/b/c", "/a/b/d", "/a/e"]`. -/
theorem claim_C1_witness :
    countLeaves (buildSubtree (connRootNode "r")
        ["/a/b/c", "/a/b/d", "/a/e"] "r").children
      = (["/a/b/c", "/a/b/d", "/a/e"] : List String).length ∧
    ((leafKV (buildSubtree (connRootNode "r")
        ["/a/b/c", "/a/b/d", "/a/e"] "r").children).map Prod.snd).Perm
      ["/a/b/c", "/a/b/d", "/a/e"] ∧
    countDirs (buildSubtree (connRootNode "r")
        ["/a/b/c", "/a/b/d", "/a/e"] "r").children
      = distinctStrictPfxCount ["/a/b/c", "/a/b/d", "/a/e"] :=
  claim_C1 (connRootNode "r") ["/a/b/c", "/a/b/d", "/a/e"] "r" rfl (by decide)

/-- C5 (amended): in a tree built by the build operations from an empty
start and a prefix-incomparable key list, a node is childless exactly
when it carries the Leaf (file) icon and has children exactly when it
carries the Directory icon (`iconsOk`), and *every* node — the synthetic
intermediate directory nodes included — carries as `fullKey` one of the
inserted keys, which is therefore non-empty rather than empty as the
claim states. -/
theorem claim_C5 (node : GNode) (K : List String) (rn : String)
    (h0 : node.children = [])
    (hac : (K.map splitKey).Pairwise (fun p q => ¬ p <+: q ∧ ¬ q <+: p)) :
    iconsOk (buildSubtree node K rn).children = true ∧
    (∀ x ∈ keysIn (buildSubtree node K rn).children, x ∈ K) := by
  rw [buildSubtree_eq, children_withChildren, h0]
  obtain ⟨_, hico, _, _, hkeys⟩ := buildSubtreeL_char K rn hac
  exact ⟨hico, hkeys⟩

/-- Counterexample to C5 as stated: in the tree built from the single
key `/a/b`, the synthetic intermediate directory node `a` has a child
and yet its `fullKey` is `/a/b`, not empty. -/
theorem claim_C5_counterexample :
    ((buildSubtree (connRootNode "r") ["/a/b"] "r").children.getD 0
        dfltNode).children ≠ [] ∧
    ((buildSubtree (connRootNode "r") ["/a/b"] "r").children.getD 0
        dfltNode).key = "/a/b" := by
  constructor
  · have h : (buildSubtree (connRootNode "r") ["/a/b"] "r").children.getD 0
        dfltNode
        = GNode.mk "a" "/a/b" "img/dir.ico" "r" false
            [GNode.mk "b" "/a/b" "img/file.ico" "r" false []] := rfl
    rw [h]
    simp
  · rfl

/-- Witness for C5 at the spec's worked example. -/
theorem claim_C5_witness :
    iconsOk (buildSubtree (connRootNode "r")
        ["/a/b/c", "/a/b/d", "/a/e"] "r").children = true ∧
    (∀ x ∈ keysIn (buildSubtree (connRootNode "r")
        ["/a/b/c", "/a/b/d", "/a/e"] "r").children,
      x ∈ (["/a/b/c", "/a/b/d", "/a/e"] : List String)) :=
  claim_C5 (connRootNode "r") ["/a/b/c", "/a/b/d", "/a/e"] "r" rfl (by decide)

/-- Witness for C6: rebuilding the same key list over the already-built
tree changes nothing, at a concrete input. -/
theorem claim_C6_witness :
    buildSubtree (buildSubtree (connRootNode "r") ["/a", "/b/c"] "r")
        ["/a", "/b/c"] "r"
      = buildSubtree (connRootNode "r") ["/a", "/b/c"] "r" :=
  (claim_C6 (connRootNode "r") ["/a", "/b/c"] "r").2 rfl

/-- Witness for C10: re-inserting `/a` after `/a/b` leaves the tree
untouched, at a concrete input. -/
theorem claim_C10_witness :
    (buildSubtree (connRootNode "r") ["/a/b"] "r").addNode (splitKey "/a")
        "/a" "r"
      = buildSubtree (connRootNode "r") ["/a/b"] "r" :=
  claim_C10 (connRootNode "r") ["/a/b"] "r" "/a" "/a/b" rfl (by decide)
    (by decide) (by decide)
